import Mathlib

/-!
Verification of the dumper knowledge-capture backend.

Go strings are modelled as lists of characters (`Str`); the Go standard
library functions the code uses (strings.TrimSpace, strings.ToLower,
strings.Fields, strings.Split, strconv.Atoi, lexicographic string
comparison) are embedded below.  Unicode character classes
(unicode.IsLetter, unicode.IsSpace and the regexp classes) are modelled
on their ASCII fragments via Char.isAlpha / Char.isDigit; all concrete
inputs evaluated in this development are ASCII, where the Go byte-wise
string functions and the character-wise model agree.  float64 strength
arithmetic is modelled over the rationals.  SQL tables are modelled as
lists, a transaction as an Except computation whose error case leaves
the pre-state untouched (rollback), and INSERT OR REPLACE as
filter-then-append on the conflict key.
-/

abbrev Str := List Char

namespace Dumper

/-- The code points unicode.IsSpace accepts in the Latin-1 range: space,
tab, newline, vertical tab, form feed, carriage return, NEL, NBSP. -/
def goIsSpaceN (n : Nat) : Bool :=
  n = 32 || n = 9 || n = 10 || n = 11 || n = 12 || n = 13 || n = 133 || n = 160

/-- unicode.IsSpace as used by strings.TrimSpace and strings.Fields. -/
def goIsSpace (c : Char) : Bool := goIsSpaceN c.toNat

/-- strings.TrimSpace: drop unicode space characters from both ends. -/
def trimSpace (s : Str) : Str :=
  ((s.dropWhile goIsSpace).reverse.dropWhile goIsSpace).reverse

/-- strings.ToLower (ASCII case mapping). -/
def toLowerStr (s : Str) : Str := s.map Char.toLower

/-- One step of the field splitter: the head of the accumulator is the
current word (possibly still empty). -/
def fieldsStep (c : Char) (acc : List Str) : List Str :=
  match acc with
  | [] => if goIsSpace c then [[]] else [[c]]
  | w :: ws =>
    if goIsSpace c then (if w = [] then w :: ws else [] :: w :: ws)
    else (c :: w) :: ws

/-- strings.Fields: split around maximal runs of unicode space characters,
implemented as a right fold that keeps the word in progress at the head
of the accumulator. -/
def fields (s : Str) : List Str :=
  match s.foldr fieldsStep [[]] with
  | [] :: ws => ws
  | ws => ws

/-- strings.Join with a single-space separator, as used by normalizeTitle. -/
def joinSpace (ws : List Str) : Str :=
  match ws with
  | [] => []
  | [w] => w
  | w :: rest => w ++ ' ' :: joinSpace rest

/-- strings.Split(s, sep)[0] for a one-character separator: the prefix of s
before the first occurrence of the separator. -/
def beforeChar (sep : Char) (s : Str) : Str := s.takeWhile (fun c => c ≠ sep)

/-- strings.Split for a one-character separator (all pieces). -/
def splitOnChar (sep : Char) : Str → List Str
  | [] => [[]]
  | c :: rest =>
    if c = sep then [] :: splitOnChar sep rest
    else (splitOnChar sep rest).modifyHead (fun w => c :: w)

/-- strings.HasPrefix. -/
def hasPrefixStr (pre s : Str) : Bool := pre.isPrefixOf s

/-- strings.Contains for a one-character needle. -/
def containsChar (c : Char) (s : Str) : Bool := s.contains c

/-- Go string comparison a < b: byte-wise lexicographic order. -/
def strLt : Str → Str → Bool
  | [], [] => false
  | [], _ :: _ => true
  | _ :: _, [] => false
  | a :: as, b :: bs => if a < b then true else if b < a then false else strLt as bs

/-- strconv.Atoi with the error result discarded, as the HTTP handler does:
an optional sign followed by one or more digits parses to its value, any
syntax error yields 0 (Go returns 0 alongside the error; a range error
returns a saturated value, which the handler's clamp sends to the same
branch as this unbounded model). -/
def goAtoi (s : Str) : Int :=
  let digitsVal : Str → Int := fun ds =>
    ds.foldl (fun acc d => acc * 10 + (d.toNat - '0'.toNat : Int)) 0
  match s with
  | [] => 0
  | '+' :: ds => if ds ≠ [] ∧ ds.all Char.isDigit then digitsVal ds else 0
  | '-' :: ds => if ds ≠ [] ∧ ds.all Char.isDigit then -digitsVal ds else 0
  | ds => if ds.all Char.isDigit then digitsVal ds else 0

/-! Pure helpers of the ingestion pipeline (internal/ingest). -/

/-- normalizeTitle: lowercase, trim, and collapse whitespace runs to single
spaces (empty input maps to empty). -/
def normalizeTitle (title : Str) : Str :=
  if title = [] then []
  else joinSpace (fields (toLowerStr (trimSpace title)))

/-- normalizeTag: lowercase the trimmed tag. -/
def normalizeTag (tag : Str) : Str := toLowerStr (trimSpace tag)

/-- normalizeTags: normalize each tag, dropping the ones that become empty. -/
def normalizeTags (tags : List Str) : List Str :=
  (tags.map normalizeTag).filter (fun t => t ≠ [])

/-- mergeTags: concatenate primary and secondary, normalize, drop empties,
and deduplicate keeping the first occurrence (primary order first). -/
def mergeTags (primary secondary : List Str) : List Str :=
  go [] (primary ++ secondary)
where
  go (seen : List Str) : List Str → List Str
    | [] => []
    | tag :: rest =>
      let t := normalizeTag tag
      if t = [] then go seen rest
      else if t ∈ seen then go seen rest
      else t :: go (t :: seen) rest

/-- filterGraphTags: remove the generic tags that never induce graph edges. -/
def filterGraphTags (tags : List Str) : List Str :=
  let ignore : List Str :=
    ["uncategorized".data, "image".data, "search".data, "link".data, "note".data]
  tags.filter (fun t => t ∉ ignore)

/-- countSharedTags: how many entries of the right-hand list belong to the
left-hand set. -/
def countSharedTags (left : List Str) (right : List Str) : Nat :=
  right.foldl (fun count tag => if tag ∈ left then count + 1 else count) 0

/-- tagOverlapStrength: 0.4 + 0.15 per shared tag, clamped to 1.0
(float64 arithmetic modelled over the rationals). -/
def tagOverlapStrength (overlap : Nat) : ℚ :=
  if overlap = 0 then 0
  else
    let strength : ℚ := 0.4 + 0.15 * overlap
    if strength > 1 then 1 else strength

/-- orderedPair: the two ids sorted by Go string comparison. -/
def orderedPair (a b : Str) : Str × Str :=
  if strLt a b then (a, b) else (b, a)

/-- relationshipPairKey: canonical key of an unordered id pair, smaller id
first, joined by a pipe character. -/
def relationshipPairKey (sourceID targetID : Str) : Str :=
  if strLt sourceID targetID then sourceID ++ '|' :: targetID
  else targetID ++ '|' :: sourceID

/-- extractTitleFromNote: the first non-blank line decides; it yields a title
exactly when it is an ATX level-1 heading with non-blank payload. -/
def extractTitleFromNote (text : Str) : Str :=
  go (splitOnChar '\n' text)
where
  go : List Str → Str
    | [] => []
    | line :: rest =>
      let trimmed := trimSpace line
      if trimmed = [] then go rest
      else if ¬ hasPrefixStr ['#'] trimmed then []
      else
        let hashCount := (trimmed.takeWhile (fun c => c = '#')).length
        if hashCount = 1 then
          let title := trimSpace (trimmed.drop 1)
          if title ≠ [] then title else []
        else []

/-- One character of the wiki-link matcher: anything but a square bracket. -/
def wikiBodyChar (c : Char) : Bool := c ≠ '[' ∧ c ≠ ']'

/-- Fuelled scanner for the wiki-link pattern; every step consumes at least
one character, so fuel equal to the input length is always enough. -/
def findWikiMatchesF : Nat → Str → List Str
  | 0, _ => []
  | fuel + 1, s =>
    match s with
    | '[' :: '[' :: t =>
      let grp := t.takeWhile wikiBodyChar
      let rest := t.drop grp.length
      if grp ≠ [] ∧ hasPrefixStr (']' :: ']' :: []) rest then
        grp :: findWikiMatchesF fuel (rest.drop 2)
      else findWikiMatchesF fuel ('[' :: t)
    | _ :: t => findWikiMatchesF fuel t
    | [] => []

/-- All matches of the pattern for double-bracketed wiki links: two opening
brackets, one or more non-bracket characters, two closing brackets;
leftmost non-overlapping occurrences, as regexp.FindAllStringSubmatch
returns them. -/
def findWikiMatches (s : Str) : List Str :=
  findWikiMatchesF s.length s

/-- Deduplication loop with a seen-set, normalizing each match and skipping
the ones that normalize to empty, as extractWikiLinkTargets does. -/
def dedupNormalized (normalize : Str → Str) : List Str → List Str → List Str
  | _, [] => []
  | seen, m :: rest =>
    let t := normalize m
    if t = [] then dedupNormalized normalize seen rest
    else if t ∈ seen then dedupNormalized normalize seen rest
    else t :: dedupNormalized normalize (t :: seen) rest

/-- normalizeWikiTarget: keep the part before the first pipe, then before the
first hash, trim it, and canonicalize it as a title. -/
def normalizeWikiTarget (raw : Str) : Str :=
  normalizeTitle (trimSpace (beforeChar '#' (beforeChar '|' raw)))

/-- extractWikiLinkTargets: canonical targets of all wiki links in a content
string, in first-occurrence order without duplicates or empties. -/
def extractWikiLinkTargets (content : Str) : List Str :=
  dedupNormalized normalizeWikiTarget [] (findWikiMatches content)

/-- The regexp class for a whitespace escape: tab, newline, form feed,
carriage return, space. -/
def reSpace (c : Char) : Bool :=
  c = '\t' || c = '\n' || c = ⟨12, by decide⟩ || c = '\r' || c = ' '

/-- A letter-or-number character (the two unicode letter and number classes,
modelled on their ASCII fragment). -/
def alnumChar (c : Char) : Bool := c.isAlpha || c.isDigit

/-- A character allowed in the body of a hashtag: letter, number,
underscore or hyphen. -/
def tagBodyChar (c : Char) : Bool := alnumChar c || c = '_' || c = '-'

/-- Fuelled helper for the greedy match of the optional slash-separated
sub-tag segments; returns the number of characters consumed.  Each
recursive step consumes at least one character, so fuel equal to the
input length is always enough. -/
def tagSegsLenF : Nat → Str → Nat
  | 0, _ => 0
  | fuel + 1, s =>
    match s with
    | '/' :: rest =>
      let seg := rest.takeWhile tagBodyChar
      if seg = [] then 0
      else 1 + seg.length + tagSegsLenF fuel (rest.drop seg.length)
    | _ => 0

/-- Number of characters consumed by the greedy match of the optional
slash-separated sub-tag segments: each segment is a slash followed by one
or more tag body characters. -/
def tagSegsLen (s : Str) : Nat := tagSegsLenF s.length s

/-- Fuelled scanner for the hashtag pattern; every step consumes at least
one character, so fuel equal to the input length is always enough. -/
def hashTagScanF : Nat → Bool → Str → List Str
  | 0, _, _ => []
  | fuel + 1, atBoundary, s =>
    match s with
    | [] => []
    | c :: rest =>
      if atBoundary ∧ c = '#' then
        match rest with
        | [] => []
        | d :: ds =>
          if alnumChar d then
            let run := ds.takeWhile tagBodyChar
            let after := ds.drop run.length
            let k := tagSegsLen after
            (d :: (run ++ after.take k)) :: hashTagScanF fuel false (after.drop k)
          else hashTagScanF fuel false (d :: ds)
      else hashTagScanF fuel (reSpace c) rest

/-- All first capture groups of the hashtag pattern: a hash preceded by
start-of-text or a whitespace character, a letter-or-number, a run of tag
body characters, and optional slash-separated segments; leftmost
non-overlapping matches. -/
def hashTagScan (atBoundary : Bool) (s : Str) : List Str :=
  hashTagScanF s.length atBoundary s

/-- extractHashTags: normalized, deduplicated hashtags of a text, in order
of first occurrence. -/
def extractHashTags (text : Str) : List Str :=
  dedupNormalized normalizeTag [] (hashTagScan true text)

/-! Short-topic detector (internal/ingest/detector.go, extractor.go). -/

/-- IsURL: the trimmed text starts with an http or https scheme. -/
def isURL (s : Str) : Bool :=
  hasPrefixStr "http://".data (trimSpace s) || hasPrefixStr "https://".data (trimSpace s)

/-- One character of the topic pattern: letter, number, hyphen, dot, slash,
plus, hash, or whitespace. -/
def topicChar (c : Char) : Bool :=
  alnumChar c || c = '-' || c = '.' || c = '/' || c = '+' || c = '#' || reSpace c

/-- IsShortTopicMessage: trimmed length within 2..50, not a URL, no question
mark, one to three words, every character in the topic class, and at
least one letter. -/
def isShortTopicMessage (text : Str) : Bool :=
  let t := trimSpace text
  if t.length < 2 ∨ t.length > 50 then false
  else if isURL t then false
  else if containsChar '?' t then false
  else if (fields t).length < 1 ∨ (fields t).length > 3 then false
  else if ¬ (t ≠ [] ∧ t.all topicChar) then false
  else t.any Char.isAlpha

/-! Vault store data model (internal/store).  Tables are lists: items
most-recent-first (ORDER BY created_at DESC is realized by prepending at
insertion under a monotone clock), tags and item_tags in insertion
order.  tag rows are identified by their unique name, so the join table
is modelled as (item id, tag name) pairs.  The surrogate integer id of a
relationship row is not consulted by any code under verification and is
omitted. -/

structure Item where
  id : Str
  type : Str
  url : Str
  title : Str
  content : Str
  summary : Str
  rawContent : Str
  imagePath : Str
  tags : List Str
  createdAt : Nat
  updatedAt : Nat
deriving DecidableEq

structure Rel where
  sourceId : Str
  targetId : Str
  relationType : Str
  strength : ℚ
deriving DecidableEq

structure VaultState where
  items : List Item
  tagNames : List Str
  itemTags : List (Str × Str)
  rels : List Rel
deriving DecidableEq

def emptyVault : VaultState := ⟨[], [], [], []⟩

/-- Tags of one item read back from the join table. -/
def itemTagsOf (s : VaultState) (id : Str) : List Str :=
  (s.itemTags.filter (fun p => p.1 = id)).map (fun p => p.2)

/-- A row with its tags loaded, as every read-side query returns it
(the tags column does not live in the items table). -/
def loadTags (s : VaultState) (row : Item) : Item :=
  { row with tags := itemTagsOf s row.id }

/-- setItemTags: inside the insert transaction, clear the item's join rows,
then for each tag lowercase and trim it, drop it if empty, upsert the tag
name, and insert the join row; a duplicate join row violates the primary
key and fails the whole transaction. -/
def setItemTags (itemID : Str) (tags : List Str) (s : VaultState) :
    Except Str VaultState :=
  go tags { s with itemTags := s.itemTags.filter (fun p => p.1 ≠ itemID) }
where
  go : List Str → VaultState → Except Str VaultState
    | [], s => .ok s
    | tag :: rest, s =>
      let t := normalizeTag tag
      if t = [] then go rest s
      else
        let s := if t ∈ s.tagNames then s
                 else { s with tagNames := s.tagNames ++ [t] }
        if (itemID, t) ∈ s.itemTags then .error "UNIQUE constraint failed: item_tags".data
        else go rest { s with itemTags := s.itemTags ++ [(itemID, t)] }

/-- CreateItem: assign the generated UUID if the id is absent, stamp both
timestamps with now, and transactionally insert the row and its tag
associations; on any failure the transaction rolls back and the caller
keeps the unchanged pre-state. -/
def createItem (now : Nat) (gen : Str) (item : Item) (s : VaultState) :
    Except Str (VaultState × Item) := do
  let id := if item.id = [] then gen else item.id
  let it := { item with id := id, createdAt := now, updatedAt := now }
  if s.items.any (fun r => r.id = id) then
    .error "UNIQUE constraint failed: items.id".data
  else
    let s1 := { s with items := { it with tags := [] } :: s.items }
    let s2 ← setItemTags id item.tags s1
    pure (s2, it)

/-- CreateItem as the pipeline observes it: the committed state on success,
the untouched pre-state on error. -/
def runCreateItem (now : Nat) (gen : Str) (item : Item) (s : VaultState) : VaultState :=
  match createItem now gen item s with
  | .ok (s', _) => s'
  | .error _ => s

/-- GetItem: nil (none) on not-found rather than an error; loads tags. -/
def getItem (s : VaultState) (id : Str) : Option Item :=
  (s.items.find? (fun r => r.id = id)).map (loadTags s)

/-- ListItems: most recent first, with limit and offset; tags loaded. -/
def listItems (s : VaultState) (limit offset : Nat) : List Item :=
  ((s.items.drop offset).take limit).map (loadTags s)

/-- ListItemsByTag: same order restricted to items carrying the tag. -/
def listItemsByTag (s : VaultState) (tag : Str) (limit offset : Nat) : List Item :=
  (((s.items.filter (fun r => (r.id, tag) ∈ s.itemTags)).drop offset).take limit).map
    (loadTags s)

/-- DeleteItem: deletes the row; the join rows and incident relationships go
with it through ON DELETE CASCADE; tag rows are not touched.  Always
succeeds, also on a missing id. -/
def deleteItem (id : Str) (s : VaultState) : VaultState :=
  { items := s.items.filter (fun r => r.id ≠ id)
    tagNames := s.tagNames
    itemTags := s.itemTags.filter (fun p => p.1 ≠ id)
    rels := s.rels.filter (fun r => r.sourceId ≠ id ∧ r.targetId ≠ id) }

/-- GetAllTags: every tag row name, sorted ascending. -/
def getAllTags (s : VaultState) : List Str :=
  s.tagNames.mergeSort (fun a b => ¬ strLt b a)

/-- CreateRelationship: INSERT OR REPLACE keyed on (source, target, type);
a missing endpoint violates the foreign keys and errors. -/
def createRelationship (r : Rel) (s : VaultState) : Except Str VaultState :=
  if s.items.any (fun it => it.id = r.sourceId) ∧
     s.items.any (fun it => it.id = r.targetId) then
    .ok { s with
          rels := s.rels.filter (fun x =>
              ¬(x.sourceId = r.sourceId ∧ x.targetId = r.targetId ∧
                x.relationType = r.relationType)) ++ [r] }
  else .error "FOREIGN KEY constraint failed".data

/-- CreateRelationship as the pipeline uses it: failures are logged and
skipped, leaving the state unchanged. -/
def runCreateRelationship (r : Rel) (s : VaultState) : VaultState :=
  match createRelationship r s with
  | .ok s' => s'
  | .error _ => s

/-- DeleteRelationship: endpoint-pair deletion. -/
def deleteRelationship (sourceID targetID : Str) (s : VaultState) : VaultState :=
  { s with rels := s.rels.filter (fun r =>
      ¬(r.sourceId = sourceID ∧ r.targetId = targetID)) }

/-- The link edges of the relationship table, in table order. -/
def linkEdges (rels : List Rel) : List Rel :=
  rels.filter (fun r => r.relationType = "link".data)

/-- The tag edges whose unordered pair is not covered by any link edge. -/
def survivingTagEdges (rels : List Rel) : List Rel :=
  (rels.filter (fun r => r.relationType = "tag".data)).filter (fun r =>
    relationshipPairKey r.sourceId r.targetId ∉
      (linkEdges rels).map (fun x => relationshipPairKey x.sourceId x.targetId))

/-- The edge list of GetGraph: link edges pass through; a tag edge survives
only when no link edge covers the same unordered pair; every other
relation type is dropped by the default branch of the switch. -/
def getGraphEdges (rels : List Rel) : List Rel :=
  linkEdges rels ++ survivingTagEdges rels

/-- GetGraph: the 1000 most recent items and the deduplicated edge list. -/
def getGraph (s : VaultState) : List Item × List Rel :=
  (listItems s 1000 0, getGraphEdges s.rels)

/-! Ingestion pipeline: the note stage and relationship inference. -/

/-- The parsed shape of a successful LLM enrichment response. -/
structure ProcessedContent where
  title : Str
  summary : Str
  tags : List Str
deriving DecidableEq

/-- An item with every scalar column empty, as a Go struct literal leaves
omitted fields. -/
def blankItem : Item :=
  ⟨[], [], [], [], [], [], [], [], [], 0, 0⟩

/-- processNote: the LLM call either fails (none) or returns processed
content (some); an explicit leading level-1 heading always wins the
title; the failure fallback truncates the raw text at 50 characters with
an ellipsis and tags it uncategorized next to the explicit hashtags. -/
def processNote (llm : Option ProcessedContent) (text : Str) : Item :=
  let explicitTitle := extractTitleFromNote text
  let explicitTags := extractHashTags text
  match llm with
  | none =>
    let title := if explicitTitle = [] then
        (if text.length > 50 then text.take 50 ++ "...".data else text)
      else explicitTitle
    { blankItem with
      type := "note".data
      title := title
      content := text
      tags := mergeTags ["uncategorized".data] explicitTags }
  | some processed =>
    let title := if explicitTitle ≠ [] then explicitTitle else processed.title
    { blankItem with
      type := "note".data
      title := title
      summary := processed.summary
      content := text
      tags := mergeTags processed.tags explicitTags }

/-- buildTitleIndex lookup: the first listed item whose normalized title is
the key; items with an empty key are not indexed. -/
def titleIndexLookup (items : List Item) (key : Str) : Option Item :=
  if key = [] then none
  else items.find? (fun it => normalizeTitle it.title = key)

/-- itemLinksToTitle: the item's content carries a wiki link whose canonical
target is the given key. -/
def itemLinksToTitle (it : Item) (titleKey : Str) : Bool :=
  if titleKey = [] ∨ it.content = [] then false
  else (extractWikiLinkTargets it.content).contains titleKey

/-- A link edge of strength one. -/
def mkLinkRel (sourceId targetId : Str) : Rel :=
  ⟨sourceId, targetId, "link".data, 1⟩

/-- First inference pass: for each wiki-link target of the new item's
content, upsert a link edge new → target; creation failures are skipped
and do not mark the pair as linked. -/
def wikiLinkPass (item : Item) (allItems : List Item) :
    List Str → VaultState × List Str → VaultState × List Str
  | [], acc => acc
  | key :: keys, (s, linked) =>
    match titleIndexLookup allItems key with
    | none => wikiLinkPass item allItems keys (s, linked)
    | some target =>
      if target.id = item.id then wikiLinkPass item allItems keys (s, linked)
      else
        match createRelationship (mkLinkRel item.id target.id) s with
        | .ok s' => wikiLinkPass item allItems keys (s', linked ++ [target.id])
        | .error _ => wikiLinkPass item allItems keys (s, linked)

/-- Second inference pass: for each pre-existing item whose content links to
the new item's title, upsert a back edge existing → new. -/
def backLinkPass (item : Item) (titleKey : Str) :
    List Item → VaultState × List Str → VaultState × List Str
  | [], acc => acc
  | other :: rest, (s, linked) =>
    if other.id = item.id then backLinkPass item titleKey rest (s, linked)
    else if ¬ itemLinksToTitle other titleKey then
      backLinkPass item titleKey rest (s, linked)
    else
      match createRelationship (mkLinkRel other.id item.id) s with
      | .ok s' => backLinkPass item titleKey rest (s', linked ++ [other.id])
      | .error _ => backLinkPass item titleKey rest (s, linked)

/-- Third inference pass: for each other item with at least one shared
non-generic tag whose pair was not linked in this run, upsert a tag edge
on the deterministically ordered pair with the overlap strength. -/
def tagOverlapPass (item : Item) (newTags : List Str) (linked : List Str) :
    List Item → VaultState → VaultState
  | [], s => s
  | other :: rest, s =>
    if other.id = item.id then tagOverlapPass item newTags linked rest s
    else if other.id ∈ linked then tagOverlapPass item newTags linked rest s
    else
      let overlap := countSharedTags newTags (filterGraphTags (normalizeTags other.tags))
      if overlap = 0 then tagOverlapPass item newTags linked rest s
      else
        let p := orderedPair item.id other.id
        tagOverlapPass item newTags linked rest
          (runCreateRelationship ⟨p.1, p.2, "tag".data, tagOverlapStrength overlap⟩ s)

/-- findAndCreateRelationships: wiki-link edges, back edges, then tag-overlap
edges over the 1000 most recent items; a vault with at most one item is
left untouched.  Best-effort: every write failure is skipped. -/
def findAndCreateRelationships (s : VaultState) (item : Item) : VaultState :=
  let allItems := listItems s 1000 0
  if allItems.length ≤ 1 then s
  else
    let newTitleKey := normalizeTitle item.title
    let r1 := wikiLinkPass item allItems (extractWikiLinkTargets item.content) (s, [])
    let r2 := if newTitleKey ≠ [] then backLinkPass item newTitleKey allItems r1 else r1
    let newTags := filterGraphTags (normalizeTags item.tags)
    if newTags = [] then r2.1
    else tagOverlapPass item newTags r2.2 allItems r2.1

/-! Obsidian exporter (package export). -/

/-- strings.Join with an arbitrary separator. -/
def joinSep (sep : Str) : List Str → Str
  | [] => []
  | [w] => w
  | w :: rest => w ++ sep ++ joinSep sep rest

/-- The character replacements of the filename sanitizer. -/
def sanitizeChar (c : Char) : Str :=
  if c = '/' then ['-'] else if c = '\\' then ['-'] else if c = ':' then ['-']
  else if c = '*' then [] else if c = '?' then [] else if c = '"' then []
  else if c = '<' then [] else if c = '>' then [] else if c = '|' then ['-']
  else if c = '\n' then [' '] else if c = '\r' then [] else [c]

/-- sanitizeFilename: replace filesystem-hostile characters, trim, cap at 100
characters, default to untitled when nothing is left. -/
def sanitizeFilename (s : Str) : Str :=
  let s := (s.map sanitizeChar).flatten
  let s := trimSpace s
  let s := if s.length > 100 then s.take 100 else s
  if s = [] then "untitled".data else s

/-- The RFC 3339 rendering of the abstract creation time.  Modelled as an
injective rendering of the clock value; no claim under verification
inspects the text of this field. -/
def formatRFC3339 (t : Nat) : Str := Nat.toDigits 10 t

/-- The frontmatter lines after the id line. -/
def itemFrontRest (item : Item) : Str :=
  "type: ".data ++ item.type ++ "\n".data ++
  (if item.url ≠ [] then "url: \"".data ++ item.url ++ "\"\n".data else []) ++
  "created: ".data ++ formatRFC3339 item.createdAt ++ "\n".data ++
  (if item.tags ≠ [] then
    "tags: [".data ++ joinSep ", ".data item.tags ++ "]\n".data else []) ++
  "---\n\n".data

/-- The lines of the Related section: one wiki link per outgoing target
whose title resolves; unresolvable targets contribute nothing. -/
def relatedBlock (relatedIDs : List Str) (titleLookup : Str → Option Str) : Str :=
  (relatedIDs.map (fun id =>
    match titleLookup id with
    | some t => "- [[".data ++ t ++ "]]\n".data
    | none => ([] : Str))).flatten

/-- The document body below the frontmatter: title heading, optional summary
blockquote, optional source link, optional content section, and the
Related section when there are outgoing link targets. -/
def itemBody (item : Item) (relatedIDs : List Str)
    (titleLookup : Str → Option Str) : Str :=
  "# ".data ++ item.title ++ "\n\n".data ++
  (if item.summary ≠ [] then "> ".data ++ item.summary ++ "\n\n".data else []) ++
  (if item.url ≠ [] then
    "**Source:** [".data ++ item.url ++ "](".data ++ item.url ++ ")\n\n".data else []) ++
  (if item.content ≠ [] then
    "## Content\n\n".data ++ item.content ++ "\n\n".data else []) ++
  (if relatedIDs ≠ [] then
    "## Related\n\n".data ++ relatedBlock relatedIDs titleLookup
  else [])

/-- itemToMarkdown: the concatenation the string builder produces, opening
with the frontmatter id line. -/
def itemToMarkdown (item : Item) (relatedIDs : List Str)
    (titleLookup : Str → Option Str) : Str :=
  "---\nid: ".data ++ item.id ++ "\n".data ++ itemFrontRest item ++
  itemBody item relatedIDs titleLookup

/-- The outgoing link-edge targets of one item, in edge-list order, as the
exporter's relationship map collects them. -/
def linkTargets (rels : List Rel) (id : Str) : List Str :=
  (rels.filter (fun r => r.relationType = "link".data ∧ r.sourceId = id)).map
    (fun r => r.targetId)

/-- The exporter's id → title map (Go map semantics: the last write wins). -/
def titleMapLookup (items : List Item) (id : Str) : Option Str :=
  items.foldl (fun acc it => if it.id = id then some it.title else acc) none

/-- Export: one archive entry per item of the graph snapshot. -/
def exportVault (s : VaultState) : List (Str × Str) :=
  let g := getGraph s
  g.1.map (fun it =>
    ("notes/".data ++ sanitizeFilename it.title ++ ".md".data,
     itemToMarkdown it (linkTargets g.2 it.id) (titleMapLookup g.1)))

/-! HTTP item listing handler (package api). -/

/-- handleListItems: parse the limit, clamp absent / malformed /
non-positive / oversized values to 20, parse the offset, and dispatch on
the optional tag filter. -/
def handleListItems (s : VaultState) (limitParam offsetParam tagParam : Str) :
    List Item :=
  let limit := goAtoi limitParam
  let limit := if limit ≤ 0 ∨ limit > 100 then 20 else limit
  let offset := goAtoi offsetParam
  if tagParam ≠ [] then listItemsByTag s tagParam limit.toNat offset.toNat
  else listItems s limit.toNat offset.toNat

/-- A small populated vault used by concrete witnesses: one note carrying
one tag and one self-referential relationship. -/
def sampleVault : VaultState :=
  { items := [{ blankItem with id := "a".data, type := "note".data, title := "Alpha".data }]
    tagNames := ["go".data]
    itemTags := [("a".data, "go".data)]
    rels := [⟨"a".data, "a".data, "link".data, 1⟩] }

/-- Referential consistency as the foreign keys enforce it: every join row
points at an existing item and an existing tag row, and every
relationship endpoint is an existing item. -/
def WellFormed (s : VaultState) : Prop :=
  (∀ p ∈ s.itemTags, (∃ it ∈ s.items, it.id = p.1) ∧ p.2 ∈ s.tagNames) ∧
  (∀ r ∈ s.rels, (∃ it ∈ s.items, it.id = r.sourceId) ∧
    (∃ it ∈ s.items, it.id = r.targetId))

/-- Two relationships cover the same unordered endpoint pair. -/
def samePair (x y : Rel) : Prop :=
  (x.sourceId = y.sourceId ∧ x.targetId = y.targetId) ∨
  (x.sourceId = y.targetId ∧ x.targetId = y.sourceId)

/-- A relationship of a type the graph view does not know. -/
def c2Rel : Rel := ⟨"a".data, "b".data, "similar_topic".data, 0.8⟩

/-- A pair connected by both a link edge and a tag edge. -/
def c2Rels : List Rel :=
  [⟨"a".data, "b".data, "link".data, 1⟩, ⟨"b".data, "a".data, "tag".data, 0.55⟩]

/-- Vault states reachable through the store operations the program
performs, together with the accumulated list of normalized non-empty tag
names supplied by the items created along the way. -/
inductive Reach : VaultState → List Str → Prop where
  | empty : Reach emptyVault []
  | create (now : Nat) (gen : Str) (item : Item) (s : VaultState) (sup : List Str) :
      Reach s sup → Reach (runCreateItem now gen item s) (sup ++ normalizeTags item.tags)
  | delete (id : Str) (s : VaultState) (sup : List Str) :
      Reach s sup → Reach (deleteItem id s) sup
  | crel (r : Rel) (s : VaultState) (sup : List Str) :
      Reach s sup → Reach (runCreateRelationship r s) sup
  | drel (a b : Str) (s : VaultState) (sup : List Str) :
      Reach s sup → Reach (deleteRelationship a b s) sup
  | infer (item : Item) (s : VaultState) (sup : List Str) :
      Reach s sup → Reach (findAndCreateRelationships s item) sup

/-- A note carrying one denormalized tag name. -/
def c7Item : Item :=
  { blankItem with type := "note".data, title := "T".data, tags := ["Go ".data] }

/-- The vault after creating that note. -/
def c7Mid : VaultState := runCreateItem 0 "i1".data c7Item emptyVault

/-- The vault after deleting the only item again: its tag row survives. -/
def c7State : VaultState := deleteItem "i1".data c7Mid

/-- First item of the tag-overlap scenario: tags go and notes. -/
def c3ItemA : Item :=
  { blankItem with type := "note".data, title := "A".data, tags := ["go".data, "notes".data] }

/-- Second item of the tag-overlap scenario: tags go and dev. -/
def c3ItemB : Item :=
  { blankItem with type := "note".data, title := "B".data, tags := ["go".data, "dev".data] }

/-- The vault after storing both items. -/
def c3State : VaultState :=
  runCreateItem 1 "b".data c3ItemB (runCreateItem 0 "a".data c3ItemA emptyVault)

/-- The just-stored second item as CreateItem returns it. -/
def c3NewItem : Item :=
  { c3ItemB with id := "b".data, createdAt := 1, updatedAt := 1 }

/-- The tag edge inference creates for the pair: source is the smaller id,
strength comes from one shared non-generic tag. -/
def c3Edge : Rel := ⟨"a".data, "b".data, "tag".data, tagOverlapStrength 1⟩

/-- Recognizes the archive entry of one item: the sanitized-title filename
under notes/ together with a frontmatter that opens with the item's id
(itemToMarkdown always begins with the id line). -/
def entryForBool (item : Item) (e : Str × Str) : Bool :=
  (e.1 == "notes/".data ++ sanitizeFilename item.title ++ ".md".data) &&
  ("---\nid: ".data ++ item.id ++ "\n".data).isPrefixOf e.2

/-- Substring test: does the pattern occur contiguously in the string
(Go strings.Contains). -/
def hasSub (pat : Str) : Str → Bool
  | [] => pat.isEmpty
  | c :: rest => pat.isPrefixOf (c :: rest) || hasSub pat rest

/-- The i-th item of the oversized-vault scenario. -/
def c5Item (i : Nat) : Item :=
  { blankItem with id := 'i' :: Nat.toDigits 10 i, type := "note".data, title := "t".data }

/-- A link edge from the most recent item to the oldest one. -/
def c5Rel : Rel := ⟨(c5Item 0).id, (c5Item 1000).id, "link".data, 1⟩

/-- A vault holding 1001 items (most recent first) and that one link edge:
the graph snapshot cuts off the oldest item. -/
def bigState : VaultState :=
  ⟨(List.range 1001).map c5Item, [], [], [c5Rel]⟩

/-- The single item of the sample vault as every read returns it, with its
tag loaded. -/
def sampleItemLoaded : Item :=
  { blankItem with id := "a".data, type := "note".data, title := "Alpha".data, tags := ["go".data] }

/-! Theorems: helper lemmas first, then one theorem per claim. -/

/-! Claim C8: the short-topic detector. -/

/-- C8: the short-topic detector accepts a text if and only if the trimmed
text has length in 2..50, word count in 1..3, is not a URL, contains no
question mark, contains at least one letter, and consists only of
letters, digits, hyphen, dot, slash, plus, hash and whitespace; in
particular it accepts a bare topic word and rejects a question and a
URL. -/
theorem claim_C8_short_topic_detector :
    (∀ text : Str,
      isShortTopicMessage text = true ↔
        (2 ≤ (trimSpace text).length ∧ (trimSpace text).length ≤ 50 ∧
         1 ≤ (fields (trimSpace text)).length ∧ (fields (trimSpace text)).length ≤ 3 ∧
         isURL (trimSpace text) = false ∧
         containsChar '?' (trimSpace text) = false ∧
         (∃ c ∈ trimSpace text, c.isAlpha = true) ∧
         (∀ c ∈ trimSpace text, topicChar c = true))) ∧
    isShortTopicMessage "kubernetes".data = true ∧
    isShortTopicMessage "how do I use kubernetes?".data = false ∧
    isShortTopicMessage "https://x.y".data = false := by
  refine ⟨?_, by decide, by decide, by decide⟩
  intro text
  simp only [isShortTopicMessage]
  constructor
  · intro h
    by_cases h1 : (trimSpace text).length < 2 ∨ (trimSpace text).length > 50
    · rw [if_pos h1] at h; exact Bool.noConfusion h
    rw [if_neg h1] at h
    by_cases h2 : isURL (trimSpace text) = true
    · rw [if_pos h2] at h; exact Bool.noConfusion h
    rw [if_neg h2] at h
    by_cases h3 : containsChar '?' (trimSpace text) = true
    · rw [if_pos h3] at h; exact Bool.noConfusion h
    rw [if_neg h3] at h
    by_cases h4 : (fields (trimSpace text)).length < 1 ∨ (fields (trimSpace text)).length > 3
    · rw [if_pos h4] at h; exact Bool.noConfusion h
    rw [if_neg h4] at h
    by_cases h5 : ¬ (trimSpace text ≠ [] ∧ (trimSpace text).all topicChar = true)
    · rw [if_pos h5] at h; exact Bool.noConfusion h
    rw [if_neg h5] at h
    rw [not_not] at h5
    push_neg at h1 h4
    obtain ⟨c, hc, hca⟩ := List.any_eq_true.mp h
    exact ⟨by omega, by omega, by omega, by omega,
      by simpa using h2, by simpa using h3, ⟨c, hc, hca⟩,
      List.all_eq_true.mp h5.2⟩
  · rintro ⟨hl1, hl2, hw1, hw2, hurl, hq, ⟨c, hc, hca⟩, hcls⟩
    have hne : trimSpace text ≠ [] := by
      intro he
      rw [he] at hl1
      simp at hl1
    rw [if_neg (by omega), if_neg (by simp [hurl]), if_neg (by simp [hq]),
      if_neg (by omega), if_neg (by simp [hne, List.all_eq_true.mpr hcls])]
    exact List.any_eq_true.mpr ⟨c, hc, hca⟩

/-! Claim C10: HTTP listing limit clamping. -/

/-- C10: an absent, malformed, non-positive or over-100 limit parameter is
replaced by 20, a limit in 1..100 is used as requested, and the same
rule governs both the plain and the tag-filtered branch. -/
theorem claim_C10_limit_clamp :
    (∀ (s : VaultState) (lp op tp : Str), goAtoi lp ≤ 0 ∨ 100 < goAtoi lp →
      handleListItems s lp op tp =
        (if tp ≠ [] then listItemsByTag s tp 20 (goAtoi op).toNat
         else listItems s 20 (goAtoi op).toNat)) ∧
    (∀ (s : VaultState) (lp op tp : Str), 0 < goAtoi lp → goAtoi lp ≤ 100 →
      handleListItems s lp op tp =
        (if tp ≠ [] then listItemsByTag s tp (goAtoi lp).toNat (goAtoi op).toNat
         else listItems s (goAtoi lp).toNat (goAtoi op).toNat)) ∧
    goAtoi [] = 0 ∧ goAtoi "abc".data = 0 ∧ goAtoi "12x".data = 0 ∧
    goAtoi "-3".data = -3 ∧ goAtoi "250".data = 250 := by
  refine ⟨?_, ?_, by decide, by decide, by decide, by decide, by decide⟩
  · intro s lp op tp h
    have hl : (if goAtoi lp ≤ 0 ∨ goAtoi lp > 100 then (20 : Int) else goAtoi lp) = 20 :=
      if_pos (by omega)
    simp only [handleListItems, hl]
    rfl
  · intro s lp op tp h1 h2
    have hl : (if goAtoi lp ≤ 0 ∨ goAtoi lp > 100 then (20 : Int) else goAtoi lp) =
        goAtoi lp := if_neg (by omega)
    simp only [handleListItems, hl]

/-- Witness for C10: a concrete oversized limit is clamped to 20 and a
concrete in-range limit is used as requested. -/
theorem claim_C10_limit_clamp_witness :
    handleListItems sampleVault "250".data [] [] =
      (if ([] : Str) ≠ [] then listItemsByTag sampleVault [] 20 (goAtoi []).toNat
       else listItems sampleVault 20 (goAtoi []).toNat) ∧
    handleListItems sampleVault "7".data [] "go".data =
      (if ("go".data : Str) ≠ [] then
        listItemsByTag sampleVault "go".data (goAtoi "7".data).toNat (goAtoi []).toNat
       else listItems sampleVault "go".data.length (goAtoi []).toNat) := by
  constructor
  · exact claim_C10_limit_clamp.1 sampleVault "250".data [] [] (by decide)
  · exact claim_C10_limit_clamp.2.1 sampleVault "7".data [] "go".data
      (by decide) (by decide)

/-! Claim C9: not-found reads and deletes. -/

/-- C9: on an id absent from the vault, GetItem answers nil without an
error, and DeleteItem succeeds leaving the state unchanged. -/
theorem claim_C9_missing_id (s : VaultState) (id : Str)
    (hwf : WellFormed s) (hid : ∀ it ∈ s.items, it.id ≠ id) :
    getItem s id = none ∧ deleteItem id s = s := by
  constructor
  · have hf : s.items.find? (fun r => decide (r.id = id)) = none :=
      List.find?_eq_none.mpr (fun it hit => by simpa using hid it hit)
    simp [getItem, hf]
  · have hitems : s.items.filter (fun r => r.id ≠ id) = s.items := by
      rw [List.filter_eq_self]
      intro it hit
      simpa using hid it hit
    have htags : s.itemTags.filter (fun p => p.1 ≠ id) = s.itemTags := by
      rw [List.filter_eq_self]
      intro p hp
      obtain ⟨⟨it, hit, hpid⟩, -⟩ := hwf.1 p hp
      simpa using hpid ▸ hid it hit
    have hrels : s.rels.filter (fun r => r.sourceId ≠ id ∧ r.targetId ≠ id) = s.rels := by
      rw [List.filter_eq_self]
      intro r hr
      obtain ⟨⟨it, hit, hsid⟩, ⟨it', hit', htid⟩⟩ := hwf.2 r hr
      have h1 := hsid ▸ hid it hit
      have h2 := htid ▸ hid it' hit'
      simp [h1, h2]
    cases s
    simp only [deleteItem] at *
    rw [hitems, htags, hrels]

/-- Witness for C9: the sample vault is well formed, carries no item with
id b, and both operations behave as stated there. -/
theorem claim_C9_missing_id_witness :
    getItem sampleVault "b".data = none ∧ deleteItem "b".data sampleVault = sampleVault :=
  claim_C9_missing_id sampleVault "b".data (by constructor <;> decide) (by decide)

/-! Order facts about the Go string comparison. -/

theorem strLt_asymm {a b : Str} (h : strLt a b = true) : strLt b a = false := by
  induction a generalizing b with
  | nil =>
    cases b with
    | nil => exact absurd h (by simp [strLt])
    | cons d bs => rfl
  | cons c as ih =>
    cases b with
    | nil => exact absurd h (by simp [strLt])
    | cons d bs =>
      simp only [strLt] at h ⊢
      by_cases h1 : c < d
      · rw [if_neg (lt_asymm h1), if_pos h1]
      · rw [if_neg h1] at h
        by_cases h2 : d < c
        · rw [if_pos h2] at h
          exact Bool.noConfusion h
        · rw [if_neg h2] at h
          rw [if_neg h2, if_neg h1]
          exact ih h

theorem strLt_connex {a b : Str} (h : a ≠ b) :
    strLt a b = true ∨ strLt b a = true := by
  induction a generalizing b with
  | nil =>
    cases b with
    | nil => exact absurd rfl h
    | cons d bs => exact Or.inl rfl
  | cons c as ih =>
    cases b with
    | nil => exact Or.inr rfl
    | cons d bs =>
      rcases lt_trichotomy c d with h1 | h1 | h1
      · left
        simp [strLt, h1]
      · subst h1
        have hne : as ≠ bs := fun he => h (by rw [he])
        rcases ih hne with h2 | h2
        · left
          simp [strLt, lt_irrefl, h2]
        · right
          simp [strLt, lt_irrefl, h2]
      · right
        simp [strLt, h1]

/-- Concatenation around a separator character absent from both left parts
is injective. -/
theorem append_sep_inj {c : Char} {u v w z : Str} (hu : c ∉ u) (hw : c ∉ w)
    (h : u ++ c :: v = w ++ c :: z) : u = w ∧ v = z := by
  induction u generalizing w with
  | nil =>
    cases w with
    | nil => simpa using h
    | cons d ds =>
      simp only [List.nil_append, List.cons_append, List.cons.injEq] at h
      obtain ⟨h1, -⟩ := h
      subst h1
      exact absurd (List.mem_cons_self _ _) hw
  | cons a as ih =>
    cases w with
    | nil =>
      simp only [List.cons_append, List.nil_append, List.cons.injEq] at h
      obtain ⟨h1, -⟩ := h
      subst h1
      exact absurd (List.mem_cons_self _ _) hu
    | cons d ds =>
      simp only [List.cons_append, List.cons.injEq] at h
      obtain ⟨h1, h2⟩ := h
      subst h1
      have hr := ih (fun hm => hu (List.mem_cons_of_mem _ hm))
        (fun hm => hw (List.mem_cons_of_mem _ hm)) h2
      exact ⟨by rw [hr.1], hr.2⟩

/-- The pair key identifies exactly the unordered endpoint pair, for ids
free of the pipe separator. -/
theorem relationshipPairKey_eq_iff {a b c d : Str}
    (ha : '|' ∉ a) (hb : '|' ∉ b) (hc : '|' ∉ c) (hd : '|' ∉ d) :
    relationshipPairKey a b = relationshipPairKey c d ↔
      ((a = c ∧ b = d) ∨ (a = d ∧ b = c)) := by
  unfold relationshipPairKey
  constructor
  · intro h
    split_ifs at h with h1 h2 h2
    · obtain ⟨e1, e2⟩ := append_sep_inj ha hc h
      exact Or.inl ⟨e1, e2⟩
    · obtain ⟨e1, e2⟩ := append_sep_inj ha hd h
      exact Or.inr ⟨e1, e2⟩
    · obtain ⟨e1, e2⟩ := append_sep_inj hb hc h
      exact Or.inr ⟨e2, e1⟩
    · obtain ⟨e1, e2⟩ := append_sep_inj hb hd h
      exact Or.inl ⟨e2, e1⟩
  · intro h
    rcases h with ⟨h1, h2⟩ | ⟨h1, h2⟩
    · subst h1
      subst h2
      rfl
    · subst h1
      subst h2
      by_cases hab : a = b
      · subst hab
        rfl
      · rcases strLt_connex hab with h3 | h3
        · rw [if_pos h3, if_neg (by simp [strLt_asymm h3])]
        · rw [if_neg (by simp [strLt_asymm h3]), if_pos h3]

/-! Claim C2: the GetGraph edge list. -/

/-- C2 (amended): a link edge always reaches the graph view; a tag edge on a
pair also covered by a link edge is suppressed; an uncovered tag edge
passes; and every relationship whose type is neither link nor tag is
omitted from the result rather than passed through. -/
theorem claim_C2_graph_edge_dedup (rels : List Rel)
    (hfree : ∀ r ∈ rels, '|' ∉ r.sourceId ∧ '|' ∉ r.targetId) :
    (∀ r ∈ rels, r.relationType = "link".data → r ∈ getGraphEdges rels) ∧
    (∀ r ∈ rels, r.relationType = "tag".data →
      (∃ l ∈ rels, l.relationType = "link".data ∧ samePair l r) →
      r ∉ getGraphEdges rels) ∧
    (∀ r ∈ rels, r.relationType = "tag".data →
      ¬ (∃ l ∈ rels, l.relationType = "link".data ∧ samePair l r) →
      r ∈ getGraphEdges rels) ∧
    (∀ r ∈ getGraphEdges rels,
      r ∈ rels ∧ (r.relationType = "link".data ∨ r.relationType = "tag".data)) := by
  simp only [getGraphEdges, linkEdges, survivingTagEdges]
  refine ⟨?_, ?_, ?_, ?_⟩
  · intro r hr ht
    exact List.mem_append_left _ (List.mem_filter.mpr ⟨hr, by simp [ht]⟩)
  · intro r hr ht ⟨l, hl, hlt, hpair⟩ hmem
    rcases List.mem_append.mp hmem with hmem | hmem
    · have := (List.mem_filter.mp hmem).2
      rw [ht] at this
      simp at this
    · have hcond := (List.mem_filter.mp hmem).2
      have hkey : relationshipPairKey l.sourceId l.targetId =
          relationshipPairKey r.sourceId r.targetId := by
        obtain ⟨hl1, hl2⟩ := hfree l hl
        obtain ⟨hr1, hr2⟩ := hfree r hr
        exact (relationshipPairKey_eq_iff hl1 hl2 hr1 hr2).mpr hpair
      have hinkeys : relationshipPairKey r.sourceId r.targetId ∈
          (rels.filter (fun x => x.relationType = "link".data)).map
            (fun x => relationshipPairKey x.sourceId x.targetId) := by
        rw [← hkey]
        exact List.mem_map_of_mem _ (List.mem_filter.mpr ⟨hl, by simp [hlt]⟩)
      simp only [decide_eq_true_eq] at hcond
      exact hcond hinkeys
  · intro r hr ht hnc
    refine List.mem_append_right _ (List.mem_filter.mpr ⟨List.mem_filter.mpr
      ⟨hr, by simp [ht]⟩, ?_⟩)
    simp only [decide_eq_true_eq]
    intro hin
    obtain ⟨l, hlf, hlkey⟩ := List.mem_map.mp hin
    obtain ⟨hl, hlt⟩ := List.mem_filter.mp hlf
    simp only [decide_eq_true_eq] at hlt
    refine hnc ⟨l, hl, hlt, ?_⟩
    obtain ⟨hl1, hl2⟩ := hfree l hl
    obtain ⟨hr1, hr2⟩ := hfree r hr
    exact (relationshipPairKey_eq_iff hl1 hl2 hr1 hr2).mp hlkey
  · intro r hmem
    rcases List.mem_append.mp hmem with hmem | hmem
    · obtain ⟨hr, ht⟩ := List.mem_filter.mp hmem
      exact ⟨hr, Or.inl (by simpa using ht)⟩
    · obtain ⟨hmem, -⟩ := List.mem_filter.mp hmem
      obtain ⟨hr, ht⟩ := List.mem_filter.mp hmem
      exact ⟨hr, Or.inr (by simpa using ht)⟩

/-- Counterexample to C2 as stated: a relationship of a third type does not
pass through to the graph view; it is dropped. -/
theorem claim_C2_counterexample :
    c2Rel ∈ [c2Rel] ∧ c2Rel.relationType ≠ "link".data ∧
    c2Rel.relationType ≠ "tag".data ∧ getGraphEdges [c2Rel] = [] :=
  ⟨List.mem_singleton_self c2Rel, by decide, by decide, rfl⟩

/-- Witness for C2: on a concrete pair carrying both a link and a tag edge,
the view keeps the link edge and drops the tag edge. -/
theorem claim_C2_graph_edge_dedup_witness :
    (⟨"a".data, "b".data, "link".data, 1⟩ : Rel) ∈ getGraphEdges c2Rels ∧
    (⟨"b".data, "a".data, "tag".data, 0.55⟩ : Rel) ∉ getGraphEdges c2Rels := by
  have hfree : ∀ r ∈ c2Rels, '|' ∉ r.sourceId ∧ '|' ∉ r.targetId := by
    intro r hr
    rcases List.mem_cons.mp hr with h | h
    · subst h
      exact ⟨by decide, by decide⟩
    rcases List.mem_singleton.mp h with h
    subst h
    exact ⟨by decide, by decide⟩
  constructor
  · exact (claim_C2_graph_edge_dedup c2Rels hfree).1 _ (List.mem_cons_self _ _) rfl
  · exact (claim_C2_graph_edge_dedup c2Rels hfree).2.1 _
      (List.mem_cons_of_mem _ (List.mem_singleton_self _)) rfl
      ⟨⟨"a".data, "b".data, "link".data, 1⟩, List.mem_cons_self _ _, rfl,
        Or.inr ⟨rfl, rfl⟩⟩

/-! Claim C6: the note stage. -/

/-- Counterexample to C6 as stated: on LLM failure with a 2-character text,
the stored title is the text itself, not the first 50 characters followed
by an ellipsis. -/
theorem claim_C6_counterexample :
    (processNote none "hi".data).title = "hi".data ∧
    "hi".data.take 50 ++ "...".data = "hi...".data ∧
    (processNote none "hi".data).title ≠ "hi".data.take 50 ++ "...".data :=
  ⟨rfl, rfl, by decide⟩

/-- C6 (amended): an explicit leading level-1 heading always wins the title;
otherwise the title is the LLM title on success, and on failure the raw
text, truncated to 50 characters with an ellipsis only when longer; the
tag set is the LLM tags (or the single uncategorized tag on failure)
merged with the explicit hashtags, normalized and deduplicated with the
primary side first. -/
theorem claim_C6_note_title_and_tags (llm : Option ProcessedContent) (text : Str) :
    (extractTitleFromNote text ≠ [] →
      (processNote llm text).title = extractTitleFromNote text) ∧
    (extractTitleFromNote text = [] →
      (processNote llm text).title =
        (match llm with
         | some p => p.title
         | none => if text.length > 50 then text.take 50 ++ "...".data else text)) ∧
    ((processNote llm text).tags =
      match llm with
      | some p => mergeTags p.tags (extractHashTags text)
      | none => mergeTags ["uncategorized".data] (extractHashTags text)) ∧
    (processNote llm text).content = text ∧
    (processNote llm text).type = "note".data := by
  cases llm with
  | none =>
    refine ⟨?_, ?_, rfl, rfl, rfl⟩
    · intro h
      simp only [processNote, if_neg h]
    · intro h
      simp only [processNote, if_pos h]
  | some p =>
    refine ⟨?_, ?_, rfl, rfl, rfl⟩
    · intro h
      simp only [processNote, if_pos h]
    · intro h
      simp only [processNote, h]
      simp

/-- Witness for C6: a note with an explicit heading keeps it over the LLM
title; a short headingless note keeps its raw text as the failure title;
the failure tags merge uncategorized with the explicit hashtag. -/
theorem claim_C6_note_title_and_tags_witness :
    extractTitleFromNote "# Meeting\nDiscuss #roadmap today".data = "Meeting".data ∧
    (processNote (some ⟨"X".data, "S".data, ["notes".data]⟩)
        "# Meeting\nDiscuss #roadmap today".data).title =
      extractTitleFromNote "# Meeting\nDiscuss #roadmap today".data ∧
    (processNote none "hi".data).title =
      (if ("hi".data : Str).length > 50 then "hi".data.take 50 ++ "...".data
       else "hi".data) ∧
    (processNote none "# Meeting\nDiscuss #roadmap today".data).tags =
      ["uncategorized".data, "roadmap".data] := by
  refine ⟨by decide, ?_, ?_, by decide⟩
  · exact (claim_C6_note_title_and_tags (some ⟨"X".data, "S".data, ["notes".data]⟩)
      "# Meeting\nDiscuss #roadmap today".data).1 (by decide)
  · exact (claim_C6_note_title_and_tags none "hi".data).2.1 (by decide)

/-! Claim C1: CreateItem is atomic. -/

theorem normalizeTags_cons (tag : Str) (rest : List Str) :
    normalizeTags (tag :: rest) =
      (if normalizeTag tag = [] then normalizeTags rest
       else normalizeTag tag :: normalizeTags rest) := by
  simp only [normalizeTags, List.map_cons, List.filter_cons]
  by_cases h : normalizeTag tag = []
  · simp [h]
  · simp [h]

/-- Effect of the tag-association loop inside the insert transaction: it
either succeeds adding exactly the normalized non-empty tags as join rows
for the item (extending the tag rows by at most those names), or it
fails. -/
theorem setItemTags_go_spec (itemID : Str) (tags : List Str) (s : VaultState) :
    (∃ s', setItemTags.go itemID tags s = .ok s' ∧
      s'.items = s.items ∧ s'.rels = s.rels ∧
      (∀ p, p ∈ s'.itemTags ↔
        p ∈ s.itemTags ∨ (p.1 = itemID ∧ p.2 ∈ normalizeTags tags)) ∧
      (∀ n ∈ s'.tagNames, n ∈ s.tagNames ∨ n ∈ normalizeTags tags)) ∨
    (∃ e, setItemTags.go itemID tags s = .error e) := by
  induction tags generalizing s with
  | nil =>
    left
    exact ⟨s, rfl, rfl, rfl, by simp [normalizeTags], fun n hn => Or.inl hn⟩
  | cons tag rest ih =>
    simp only [setItemTags.go]
    by_cases ht : normalizeTag tag = []
    · rw [if_pos ht]
      rcases ih s with ⟨s', hok, hi, hr, hmem, hnames⟩ | ⟨e, he⟩
      · left
        refine ⟨s', hok, hi, hr, ?_, ?_⟩
        · intro p
          rw [hmem p, normalizeTags_cons, if_pos ht]
        · intro n hn
          rw [normalizeTags_cons, if_pos ht]
          exact hnames n hn
      · right
        exact ⟨e, he⟩
    · rw [if_neg ht]
      set s1 := if normalizeTag tag ∈ s.tagNames then s
        else { s with tagNames := s.tagNames ++ [normalizeTag tag] } with hs1
      have hs1items : s1.items = s.items := by
        rw [hs1]
        split <;> rfl
      have hs1rels : s1.rels = s.rels := by
        rw [hs1]
        split <;> rfl
      have hs1itemTags : s1.itemTags = s.itemTags := by
        rw [hs1]
        split <;> rfl
      have hs1names : ∀ n ∈ s1.tagNames, n ∈ s.tagNames ∨ n = normalizeTag tag := by
        rw [hs1]
        split
        · intro n hn
          exact Or.inl hn
        · intro n hn
          simpa using List.mem_append.mp hn
      rw [hs1itemTags]
      by_cases hdup : (itemID, normalizeTag tag) ∈ s.itemTags
      · rw [if_pos hdup]
        right
        exact ⟨_, rfl⟩
      · rw [if_neg hdup]
        rcases ih { s1 with itemTags := s.itemTags ++ [(itemID, normalizeTag tag)] } with
          ⟨s', hok, hi, hr, hmem, hnames⟩ | ⟨e, he⟩
        · left
          refine ⟨s', hok, by rw [hi]; exact hs1items, by rw [hr]; exact hs1rels, ?_, ?_⟩
          · intro p
            rw [hmem p]
            rcases p with ⟨p1, p2⟩
            simp only [List.mem_append, List.mem_singleton, Prod.mk.injEq,
              normalizeTags_cons, if_neg ht, List.mem_cons]
            tauto
          · intro n hn
            rcases hnames n hn with hn' | hn'
            · rcases hs1names n hn' with hn'' | hn''
              · exact Or.inl hn''
              · subst hn''
                rw [normalizeTags_cons, if_neg ht]
                exact Or.inr (List.mem_cons_self _ _)
            · rw [normalizeTags_cons, if_neg ht]
              exact Or.inr (List.mem_cons_of_mem _ hn')
        · right
          exact ⟨e, he⟩

/-- Full case analysis of CreateItem: it either commits the item row
together with exactly the lowercased, trimmed, non-empty tag
associations (touching no other table), or fails and leaves the vault
state untouched. -/
theorem createItem_atomic_spec (now : Nat) (gen : Str) (item : Item) (s : VaultState) :
    (∃ s' it, createItem now gen item s = .ok (s', it) ∧
      runCreateItem now gen item s = s' ∧
      it = { item with id := (if item.id = [] then gen else item.id), createdAt := now, updatedAt := now } ∧
      s'.items = { it with tags := [] } :: s.items ∧
      s'.rels = s.rels ∧
      (∀ p, p ∈ s'.itemTags ↔
        (p ∈ s.itemTags ∧ p.1 ≠ it.id) ∨
        (p.1 = it.id ∧ p.2 ∈ normalizeTags item.tags)) ∧
      (∀ n ∈ s'.tagNames, n ∈ s.tagNames ∨ n ∈ normalizeTags item.tags)) ∨
    ((∃ e, createItem now gen item s = .error e) ∧ runCreateItem now gen item s = s) := by
  by_cases hdup : s.items.any (fun r => r.id = (if item.id = [] then gen else item.id)) = true
  · right
    constructor
    · refine ⟨"UNIQUE constraint failed: items.id".data, ?_⟩
      simp only [createItem, hdup]
      rfl
    · simp only [runCreateItem, createItem, hdup]
      rfl
  · have hspec := setItemTags_go_spec (if item.id = [] then gen else item.id) item.tags
      { items := { item with id := (if item.id = [] then gen else item.id), createdAt := now, updatedAt := now, tags := [] } :: s.items
        tagNames := s.tagNames
        itemTags := s.itemTags.filter
          (fun p => p.1 ≠ (if item.id = [] then gen else item.id))
        rels := s.rels }
    rcases hspec with ⟨s', hok, hi, hr, hmem, hnames⟩ | ⟨e, he⟩
    · left
      refine ⟨s', _, ?_, ?_, rfl, by rw [hi], by rw [hr], ?_, ?_⟩
      · simp only [createItem, hdup, Bool.false_eq_true, if_false, setItemTags]
        rw [hok]
        rfl
      · simp only [runCreateItem, createItem, hdup, Bool.false_eq_true, if_false,
          setItemTags]
        rw [hok]
        rfl
      · intro p
        rw [hmem p]
        simp only [List.mem_filter, decide_eq_true_eq]
      · intro n hn
        exact hnames n hn
    · right
      constructor
      · refine ⟨e, ?_⟩
        simp only [createItem, hdup, Bool.false_eq_true, if_false, setItemTags]
        rw [he]
        rfl
      · simp only [runCreateItem, createItem, hdup, Bool.false_eq_true, if_false,
          setItemTags]
        rw [he]
        rfl

/-- C1: CreateItem is atomic: either the item row and exactly its
lowercased, trimmed, non-empty tag associations are committed (and no
other table row is touched except possibly new tag names), or the
operation fails and the vault state is unchanged. -/
theorem claim_C1_create_item_atomic (now : Nat) (gen : Str) (item : Item) (s : VaultState) :
    (∃ s' it, createItem now gen item s = .ok (s', it) ∧
      runCreateItem now gen item s = s' ∧
      it = { item with id := (if item.id = [] then gen else item.id), createdAt := now, updatedAt := now } ∧
      s'.items = { it with tags := [] } :: s.items ∧
      s'.rels = s.rels ∧
      (∀ p, p ∈ s'.itemTags ↔
        (p ∈ s.itemTags ∧ p.1 ≠ it.id) ∨
        (p.1 = it.id ∧ p.2 ∈ normalizeTags item.tags)) ∧
      (∀ n ∈ s'.tagNames, n ∈ s.tagNames ∨ n ∈ normalizeTags item.tags)) ∨
    ((∃ e, createItem now gen item s = .error e) ∧ runCreateItem now gen item s = s) :=
  createItem_atomic_spec now gen item s

/-! Claim C7: contents of the tags table across the vault lifecycle. -/

theorem createRelationship_ok_eq {r : Rel} {s s' : VaultState}
    (h : createRelationship r s = .ok s') :
    s'.items = s.items ∧ s'.tagNames = s.tagNames ∧ s'.itemTags = s.itemTags := by
  unfold createRelationship at h
  split_ifs at h with hc
  injection h with h'
  subst h'
  exact ⟨rfl, rfl, rfl⟩

theorem runCreateRelationship_preserves (r : Rel) (s : VaultState) :
    (runCreateRelationship r s).items = s.items ∧
    (runCreateRelationship r s).tagNames = s.tagNames ∧
    (runCreateRelationship r s).itemTags = s.itemTags := by
  unfold runCreateRelationship
  cases h : createRelationship r s with
  | ok s' => exact createRelationship_ok_eq h
  | error e => exact ⟨rfl, rfl, rfl⟩

theorem wikiLinkPass_preserves (item : Item) (allItems : List Item) :
    ∀ (keys : List Str) (s : VaultState) (linked : List Str),
      (wikiLinkPass item allItems keys (s, linked)).1.items = s.items ∧
      (wikiLinkPass item allItems keys (s, linked)).1.tagNames = s.tagNames ∧
      (wikiLinkPass item allItems keys (s, linked)).1.itemTags = s.itemTags := by
  intro keys
  induction keys with
  | nil => exact fun s linked => ⟨rfl, rfl, rfl⟩
  | cons key rest ih =>
    intro s linked
    rcases hfind : titleIndexLookup allItems key with _ | target
    · simp only [wikiLinkPass, hfind]
      exact ih s linked
    · simp only [wikiLinkPass, hfind]
      by_cases he : target.id = item.id
      · rw [if_pos he]
        exact ih s linked
      · rw [if_neg he]
        cases hcr : createRelationship (mkLinkRel item.id target.id) s with
        | ok s1 =>
          have hp := createRelationship_ok_eq hcr
          have hi := ih s1 (linked ++ [target.id])
          exact ⟨hi.1.trans hp.1, hi.2.1.trans hp.2.1, hi.2.2.trans hp.2.2⟩
        | error e => exact ih s linked

theorem backLinkPass_preserves (item : Item) (titleKey : Str) :
    ∀ (others : List Item) (s : VaultState) (linked : List Str),
      (backLinkPass item titleKey others (s, linked)).1.items = s.items ∧
      (backLinkPass item titleKey others (s, linked)).1.tagNames = s.tagNames ∧
      (backLinkPass item titleKey others (s, linked)).1.itemTags = s.itemTags := by
  intro others
  induction others with
  | nil => exact fun s linked => ⟨rfl, rfl, rfl⟩
  | cons other rest ih =>
    intro s linked
    simp only [backLinkPass]
    by_cases he : other.id = item.id
    · rw [if_pos he]
      exact ih s linked
    · rw [if_neg he]
      by_cases hl : ¬ itemLinksToTitle other titleKey = true
      · rw [if_pos hl]
        exact ih s linked
      · rw [if_neg hl]
        cases hcr : createRelationship (mkLinkRel other.id item.id) s with
        | ok s1 =>
          have hp := createRelationship_ok_eq hcr
          have hi := ih s1 (linked ++ [other.id])
          exact ⟨hi.1.trans hp.1, hi.2.1.trans hp.2.1, hi.2.2.trans hp.2.2⟩
        | error e => exact ih s linked

theorem tagOverlapPass_preserves (item : Item) (newTags linked : List Str) :
    ∀ (others : List Item) (s : VaultState),
      (tagOverlapPass item newTags linked others s).items = s.items ∧
      (tagOverlapPass item newTags linked others s).tagNames = s.tagNames ∧
      (tagOverlapPass item newTags linked others s).itemTags = s.itemTags := by
  intro others
  induction others with
  | nil => exact fun s => ⟨rfl, rfl, rfl⟩
  | cons other rest ih =>
    intro s
    simp only [tagOverlapPass]
    by_cases he : other.id = item.id
    · rw [if_pos he]
      exact ih s
    · rw [if_neg he]
      by_cases hin : other.id ∈ linked
      · rw [if_pos hin]
        exact ih s
      · rw [if_neg hin]
        by_cases hov : countSharedTags newTags (filterGraphTags (normalizeTags other.tags)) = 0
        · rw [if_pos hov]
          exact ih s
        · rw [if_neg hov]
          have hp := runCreateRelationship_preserves
            ⟨(orderedPair item.id other.id).1, (orderedPair item.id other.id).2,
             "tag".data, tagOverlapStrength
               (countSharedTags newTags (filterGraphTags (normalizeTags other.tags)))⟩ s
          have hi := ih (runCreateRelationship
            ⟨(orderedPair item.id other.id).1, (orderedPair item.id other.id).2,
             "tag".data, tagOverlapStrength
               (countSharedTags newTags (filterGraphTags (normalizeTags other.tags)))⟩ s)
          exact ⟨hi.1.trans hp.1, hi.2.1.trans hp.2.1, hi.2.2.trans hp.2.2⟩

theorem findAndCreateRelationships_preserves (s : VaultState) (item : Item) :
    (findAndCreateRelationships s item).items = s.items ∧
    (findAndCreateRelationships s item).tagNames = s.tagNames ∧
    (findAndCreateRelationships s item).itemTags = s.itemTags := by
  unfold findAndCreateRelationships
  by_cases hlen : (listItems s 1000 0).length ≤ 1
  · rw [if_pos hlen]
    exact ⟨rfl, rfl, rfl⟩
  · rw [if_neg hlen]
    have h1 := wikiLinkPass_preserves item (listItems s 1000 0)
      (extractWikiLinkTargets item.content) s []
    set r1 := wikiLinkPass item (listItems s 1000 0)
      (extractWikiLinkTargets item.content) (s, []) with hr1
    have h2 : (if normalizeTitle item.title ≠ [] then
        backLinkPass item (normalizeTitle item.title) (listItems s 1000 0) r1
        else r1).1.items = s.items ∧
        (if normalizeTitle item.title ≠ [] then
        backLinkPass item (normalizeTitle item.title) (listItems s 1000 0) r1
        else r1).1.tagNames = s.tagNames ∧
        (if normalizeTitle item.title ≠ [] then
        backLinkPass item (normalizeTitle item.title) (listItems s 1000 0) r1
        else r1).1.itemTags = s.itemTags := by
      split
      · have hb := backLinkPass_preserves item (normalizeTitle item.title)
          (listItems s 1000 0) r1.1 r1.2
        exact ⟨hb.1.trans h1.1, hb.2.1.trans h1.2.1, hb.2.2.trans h1.2.2⟩
      · exact h1
    set r2 := if normalizeTitle item.title ≠ [] then
      backLinkPass item (normalizeTitle item.title) (listItems s 1000 0) r1 else r1 with hr2
    by_cases hnt : filterGraphTags (normalizeTags item.tags) = []
    · rw [if_pos hnt]
      exact h2
    · rw [if_neg hnt]
      have ht := tagOverlapPass_preserves item (filterGraphTags (normalizeTags item.tags))
        r2.2 (listItems s 1000 0) r2.1
      exact ⟨ht.1.trans h2.1, ht.2.1.trans h2.2.1, ht.2.2.trans h2.2.2⟩

/-- C7 (amended): in every reachable vault state, every tag name stored in
the tags table is one of the lowercased, trimmed, non-empty tag strings
supplied by some item created over the vault's history; deleting items
or replacing tag sets does not remove tag rows, so a row may outlive
every item that referenced it. -/
theorem claim_C7_tag_rows_supplied {s : VaultState} {sup : List Str} (h : Reach s sup) :
    ∀ n ∈ s.tagNames, n ∈ sup := by
  induction h with
  | empty =>
    intro n hn
    exact absurd hn (by simp [emptyVault])
  | create now gen item s0 sup0 h0 ih =>
    intro n hn
    rcases createItem_atomic_spec now gen item s0 with
      ⟨s', it, hok, hrun, hit, hitems, hrels, hmem, hnames⟩ | ⟨⟨e, herr⟩, hrun⟩
    · rw [hrun] at hn
      rcases hnames n hn with h1 | h1
      · exact List.mem_append_left _ (ih n h1)
      · exact List.mem_append_right _ h1
    · rw [hrun] at hn
      exact List.mem_append_left _ (ih n hn)
  | delete id s0 sup0 h0 ih =>
    intro n hn
    exact ih n hn
  | crel r s0 sup0 h0 ih =>
    intro n hn
    rw [(runCreateRelationship_preserves r s0).2.1] at hn
    exact ih n hn
  | drel a b s0 sup0 h0 ih =>
    intro n hn
    exact ih n hn
  | infer item s0 sup0 h0 ih =>
    intro n hn
    rw [(findAndCreateRelationships_preserves s0 item).2.1] at hn
    exact ih n hn

/-- Counterexample to C7 as stated: after creating a note with tag Go and
deleting it, the reachable state keeps the row go in the tags table while
no item references it. -/
theorem claim_C7_counterexample :
    "go".data ∈ c7State.tagNames ∧ c7State.itemTags = [] ∧ c7State.items = [] ∧
    Reach c7State ["go".data] := by
  refine ⟨by decide, by decide, by decide, ?_⟩
  have h1 : Reach c7Mid ([] ++ normalizeTags c7Item.tags) :=
    Reach.create 0 "i1".data c7Item emptyVault [] Reach.empty
  have h2 : ([] ++ normalizeTags c7Item.tags) = ["go".data] := by decide
  exact h2 ▸ Reach.delete "i1".data c7Mid _ h1

/-- Witness for C7: the tag row created from the supplied string Go (with a
trailing space) is among the normalized supplied names. -/
theorem claim_C7_tag_rows_supplied_witness :
    "go".data ∈ ([] ++ normalizeTags c7Item.tags) :=
  claim_C7_tag_rows_supplied
    (Reach.create 0 "i1".data c7Item emptyVault [] Reach.empty) "go".data (by decide)

/-! Claim C4: wiki-link target normalization. -/

theorem takeWhile_append_of_all {α : Type} {p : α → Bool} {xs : List α}
    (h : ∀ x ∈ xs, p x = true) (ys : List α) :
    (xs ++ ys).takeWhile p = xs ++ ys.takeWhile p := by
  induction xs with
  | nil => simp
  | cons a rest ih =>
    rw [List.cons_append, List.takeWhile_cons, if_pos (h a (List.mem_cons_self _ _)),
      ih (fun x hx => h x (List.mem_cons_of_mem _ hx)), List.cons_append]

theorem takeWhile_eq_self_of_all {α : Type} {p : α → Bool} {xs : List α}
    (h : ∀ x ∈ xs, p x = true) : xs.takeWhile p = xs := by
  induction xs with
  | nil => rfl
  | cons a rest ih =>
    rw [List.takeWhile_cons, if_pos (h a (List.mem_cons_self _ _)),
      ih (fun x hx => h x (List.mem_cons_of_mem _ hx))]

theorem toLower_toNat (c : Char) :
    (Char.toLower c).toNat =
      if 65 ≤ c.toNat ∧ c.toNat ≤ 90 then c.toNat + 32 else c.toNat := by
  unfold Char.toLower
  split
  · rename_i h
    rw [if_pos ⟨h.1, h.2⟩]
    have hv : (c.toNat + 32).isValidChar := Or.inl (by omega)
    unfold Char.ofNat
    rw [dif_pos hv]
    rfl
  · rename_i h
    rw [if_neg h]

theorem goIsSpace_toLower (c : Char) :
    goIsSpace (Char.toLower c) = goIsSpace c := by
  unfold goIsSpace
  rw [toLower_toNat]
  by_cases hr : 65 ≤ c.toNat ∧ c.toNat ≤ 90
  · rw [if_pos hr]
    have h1 : goIsSpaceN (c.toNat + 32) = false := by
      simp only [goIsSpaceN, Bool.or_eq_false_iff, decide_eq_false_iff_not]
      omega
    have h2 : goIsSpaceN c.toNat = false := by
      simp only [goIsSpaceN, Bool.or_eq_false_iff, decide_eq_false_iff_not]
      omega
    rw [h1, h2]
  · rw [if_neg hr]

theorem fieldsStep_ne_nil (c : Char) (acc : List Str) : fieldsStep c acc ≠ [] := by
  rcases acc with _ | ⟨w, ws⟩
  · simp only [fieldsStep]
    split <;> simp
  · simp only [fieldsStep]
    split
    · split <;> simp
    · simp

theorem foldr_fieldsStep_ne_nil (s : Str) : s.foldr fieldsStep [[]] ≠ [] := by
  cases s with
  | nil => simp
  | cons c rest => exact fieldsStep_ne_nil c _

theorem fields_cons_space {c : Char} (hc : goIsSpace c = true) (s : Str) :
    fields (c :: s) = fields s := by
  unfold fields
  simp only [List.foldr_cons]
  rcases h : s.foldr fieldsStep [[]] with _ | ⟨w, ws⟩
  · exact absurd h (foldr_fieldsStep_ne_nil s)
  · rcases w with _ | ⟨a, w'⟩
    · simp [fieldsStep, hc]
    · simp [fieldsStep, hc]

theorem fields_dropWhile_space (s : Str) :
    fields (s.dropWhile goIsSpace) = fields s := by
  induction s with
  | nil => rfl
  | cons c rest ih =>
    by_cases hc : goIsSpace c = true
    · rw [List.dropWhile_cons, if_pos hc, ih, fields_cons_space hc]
    · rw [List.dropWhile_cons, if_neg (by simp [hc])]

theorem foldr_fieldsStep_all_space {t : Str} (h : ∀ c ∈ t, goIsSpace c = true) :
    t.foldr fieldsStep [[]] = [[]] := by
  induction t with
  | nil => rfl
  | cons c rest ih =>
    rw [List.foldr_cons, ih (fun x hx => h x (List.mem_cons_of_mem _ hx))]
    simp [fieldsStep, h c (List.mem_cons_self _ _)]

theorem fields_append_spaces {t : Str} (h : ∀ c ∈ t, goIsSpace c = true) (s : Str) :
    fields (s ++ t) = fields s := by
  unfold fields
  rw [List.foldr_append, foldr_fieldsStep_all_space h]

theorem fields_trimSpace (s : Str) : fields (trimSpace s) = fields s := by
  unfold trimSpace
  have hdecomp : s.dropWhile goIsSpace =
      ((s.dropWhile goIsSpace).reverse.dropWhile goIsSpace).reverse ++
      ((s.dropWhile goIsSpace).reverse.takeWhile goIsSpace).reverse := by
    conv_lhs => rw [← List.reverse_reverse (s.dropWhile goIsSpace),
      ← List.takeWhile_append_dropWhile goIsSpace (s.dropWhile goIsSpace).reverse]
    rw [List.reverse_append]
  have hsp : ∀ c ∈ ((s.dropWhile goIsSpace).reverse.takeWhile goIsSpace).reverse,
      goIsSpace c = true := by
    intro c hc
    rw [List.mem_reverse] at hc
    exact List.mem_takeWhile_imp hc
  calc fields (((s.dropWhile goIsSpace).reverse.dropWhile goIsSpace).reverse)
      = fields (((s.dropWhile goIsSpace).reverse.dropWhile goIsSpace).reverse ++
          ((s.dropWhile goIsSpace).reverse.takeWhile goIsSpace).reverse) :=
        (fields_append_spaces hsp _).symm
    _ = fields (s.dropWhile goIsSpace) := by rw [← hdecomp]
    _ = fields s := fields_dropWhile_space s

theorem toLowerStr_trimSpace (s : Str) :
    toLowerStr (trimSpace s) = trimSpace (toLowerStr s) := by
  unfold toLowerStr trimSpace
  have hp : (goIsSpace ∘ Char.toLower) = goIsSpace := funext goIsSpace_toLower
  rw [List.dropWhile_map, hp, ← List.map_reverse, List.dropWhile_map, hp,
    ← List.map_reverse]

theorem normalizeTitle_eq (t : Str) :
    normalizeTitle t = joinSpace (fields (toLowerStr t)) := by
  unfold normalizeTitle
  by_cases h : t = []
  · subst h
    rfl
  · rw [if_neg h, toLowerStr_trimSpace, fields_trimSpace]

theorem normalizeWikiTarget_eq (raw : Str) :
    normalizeWikiTarget raw =
      joinSpace (fields (toLowerStr (beforeChar '#' (beforeChar '|' raw)))) := by
  unfold normalizeWikiTarget
  rw [normalizeTitle_eq, toLowerStr_trimSpace, fields_trimSpace]

theorem beforeChar_of_not_mem {c : Char} {s : Str} (h : c ∉ s) :
    beforeChar c s = s :=
  takeWhile_eq_self_of_all (fun x hx => by
    simp only [decide_eq_true_eq]
    exact fun he => h (he ▸ hx))

theorem beforeChar_append {c : Char} {u : Str} (h : c ∉ u) (v : Str) :
    beforeChar c (u ++ c :: v) = u := by
  unfold beforeChar
  rw [takeWhile_append_of_all (fun x hx => by
    simp only [decide_eq_true_eq]
    exact fun he => h (he ▸ hx)) _]
  simp [List.takeWhile_cons]

theorem findWikiMatchesF_nil (fuel : Nat) : findWikiMatchesF fuel [] = [] := by
  cases fuel <;> rfl

/-- C4: the canonical key of a wiki link is the lowercased,
whitespace-collapsed base before the pipe and the hash; it ignores the
alias and section suffixes and is insensitive to letter case and to
whitespace runs; and extraction of a single well-formed wiki link
returns exactly that key. -/
theorem claim_C4_wiki_target_normalization
    (base als sec base' t : Str)
    (hb1 : '|' ∉ base) (hb2 : '#' ∉ base)
    (hb1' : '|' ∉ base') (hb2' : '#' ∉ base')
    (hwords : fields (toLowerStr base) = fields (toLowerStr base'))
    (ht1 : '[' ∉ t) (ht2 : ']' ∉ t) (ht3 : normalizeWikiTarget t ≠ []) :
    normalizeWikiTarget base = normalizeTitle base ∧
    normalizeWikiTarget (base ++ '|' :: als) = normalizeWikiTarget base ∧
    normalizeWikiTarget (base ++ '#' :: sec) = normalizeWikiTarget base ∧
    normalizeWikiTarget base = normalizeWikiTarget base' ∧
    extractWikiLinkTargets ('[' :: '[' :: (t ++ ']' :: ']' :: [])) =
      [normalizeWikiTarget t] := by
  have hkey : ∀ b : Str, '|' ∉ b → '#' ∉ b →
      normalizeWikiTarget b = joinSpace (fields (toLowerStr b)) := by
    intro b h1 h2
    rw [normalizeWikiTarget_eq, beforeChar_of_not_mem h1, beforeChar_of_not_mem h2]
  refine ⟨?_, ?_, ?_, ?_, ?_⟩
  · rw [hkey base hb1 hb2, normalizeTitle_eq]
  · rw [normalizeWikiTarget_eq, beforeChar_append hb1, beforeChar_of_not_mem hb2,
      hkey base hb1 hb2]
  · have hstep : beforeChar '|' (base ++ '#' :: sec) =
        base ++ '#' :: beforeChar '|' sec := by
      unfold beforeChar
      rw [takeWhile_append_of_all (fun x hx => by
        simp only [decide_eq_true_eq]
        exact fun he => hb1 (he ▸ hx)) _, List.takeWhile_cons]
      simp
    rw [normalizeWikiTarget_eq, hstep, beforeChar_append hb2,
      hkey base hb1 hb2]
  · rw [hkey base hb1 hb2, hkey base' hb1' hb2', hwords]
  · have htne : t ≠ [] := by
      intro he
      exact ht3 (by rw [he]; rfl)
    have hall : ∀ x ∈ t, wikiBodyChar x = true := by
      intro x hx
      simp only [wikiBodyChar, decide_eq_true_eq]
      exact ⟨fun he => ht1 (he ▸ hx), fun he => ht2 (he ▸ hx)⟩
    have hgrp : (t ++ ']' :: ']' :: []).takeWhile wikiBodyChar = t := by
      rw [takeWhile_append_of_all hall]
      simp [List.takeWhile_cons, wikiBodyChar]
    have hlen : ('[' :: '[' :: (t ++ ']' :: ']' :: []) : Str).length =
        (t.length + 3) + 1 := by
      simp only [List.length_cons, List.length_append, List.length_nil]
    unfold extractWikiLinkTargets findWikiMatches
    rw [hlen]
    show dedupNormalized normalizeWikiTarget []
      (findWikiMatchesF (t.length + 3 + 1) ('[' :: '[' :: (t ++ ']' :: ']' :: []))) = _
    rw [findWikiMatchesF]
    simp only [hgrp]
    rw [if_pos ?_]
    · have hdrop : (t ++ ']' :: ']' :: []).drop t.length = ']' :: ']' :: [] := by
        have := List.drop_left t (']' :: ']' :: [])
        exact this
      rw [hdrop]
      show dedupNormalized normalizeWikiTarget []
        (t :: findWikiMatchesF (t.length + 3) []) = _
      rw [findWikiMatchesF_nil]
      simp [dedupNormalized, ht3]
    · constructor
      · exact htne
      · rw [List.drop_left t (']' :: ']' :: [])]
        rfl

/-- Witness for C4: concrete aliases, sections, case and whitespace variants
of one target all normalize to the same key, and extraction returns it. -/
theorem claim_C4_wiki_target_normalization_witness :
    normalizeWikiTarget "My  Page".data = normalizeTitle "My  Page".data ∧
    normalizeWikiTarget ("My  Page".data ++ '|' :: "alias".data) =
      normalizeWikiTarget "My  Page".data ∧
    normalizeWikiTarget ("My  Page".data ++ '#' :: "Section".data) =
      normalizeWikiTarget "My  Page".data ∧
    normalizeWikiTarget "My  Page".data = normalizeWikiTarget " my page ".data ∧
    extractWikiLinkTargets ('[' :: '[' :: ("Target".data ++ ']' :: ']' :: [])) =
      [normalizeWikiTarget "Target".data] :=
  claim_C4_wiki_target_normalization "My  Page".data "alias".data "Section".data
    " my page ".data "Target".data (by decide) (by decide) (by decide) (by decide)
    (by decide) (by decide) (by decide) (by decide)

/-! Claim C3: shape of the inferred tag-overlap edges. -/

theorem createRelationship_ok_rels {x : Rel} {s s' : VaultState}
    (h : createRelationship x s = .ok s') :
    s'.rels = s.rels.filter (fun y =>
      ¬(y.sourceId = x.sourceId ∧ y.targetId = x.targetId ∧
        y.relationType = x.relationType)) ++ [x] := by
  unfold createRelationship at h
  split_ifs at h with hc
  injection h with h'
  subst h'
  rfl

theorem runCreateRelationship_mem {r x : Rel} {s : VaultState}
    (h : r ∈ (runCreateRelationship x s).rels) : r ∈ s.rels ∨ r = x := by
  unfold runCreateRelationship at h
  cases hcr : createRelationship x s with
  | ok s' =>
    rw [hcr] at h
    rw [createRelationship_ok_rels hcr] at h
    rcases List.mem_append.mp h with h' | h'
    · exact Or.inl (List.mem_filter.mp h').1
    · exact Or.inr (List.mem_singleton.mp h')
  | error e =>
    rw [hcr] at h
    exact Or.inl h

theorem wikiLinkPass_rels (item : Item) (allItems : List Item) :
    ∀ (keys : List Str) (s : VaultState) (linked : List Str) (r : Rel),
      r ∈ (wikiLinkPass item allItems keys (s, linked)).1.rels →
      r ∈ s.rels ∨ r.relationType = "link".data := by
  intro keys
  induction keys with
  | nil => exact fun s linked r h => Or.inl h
  | cons key rest ih =>
    intro s linked r h
    rcases hfind : titleIndexLookup allItems key with _ | target
    · simp only [wikiLinkPass, hfind] at h
      exact ih s linked r h
    · simp only [wikiLinkPass, hfind] at h
      by_cases he : target.id = item.id
      · rw [if_pos he] at h
        exact ih s linked r h
      · rw [if_neg he] at h
        cases hcr : createRelationship (mkLinkRel item.id target.id) s with
        | ok s1 =>
          rw [hcr] at h
          rcases ih s1 (linked ++ [target.id]) r h with h' | h'
          · rw [createRelationship_ok_rels hcr] at h'
            rcases List.mem_append.mp h' with h'' | h''
            · exact Or.inl (List.mem_filter.mp h'').1
            · rw [List.mem_singleton.mp h'']
              exact Or.inr rfl
          · exact Or.inr h'
        | error e =>
          rw [hcr] at h
          exact ih s linked r h

theorem backLinkPass_rels (item : Item) (titleKey : Str) :
    ∀ (others : List Item) (s : VaultState) (linked : List Str) (r : Rel),
      r ∈ (backLinkPass item titleKey others (s, linked)).1.rels →
      r ∈ s.rels ∨ r.relationType = "link".data := by
  intro others
  induction others with
  | nil => exact fun s linked r h => Or.inl h
  | cons other rest ih =>
    intro s linked r h
    simp only [backLinkPass] at h
    by_cases he : other.id = item.id
    · rw [if_pos he] at h
      exact ih s linked r h
    · rw [if_neg he] at h
      by_cases hl : ¬ itemLinksToTitle other titleKey = true
      · rw [if_pos hl] at h
        exact ih s linked r h
      · rw [if_neg hl] at h
        cases hcr : createRelationship (mkLinkRel other.id item.id) s with
        | ok s1 =>
          rw [hcr] at h
          rcases ih s1 (linked ++ [other.id]) r h with h' | h'
          · rw [createRelationship_ok_rels hcr] at h'
            rcases List.mem_append.mp h' with h'' | h''
            · exact Or.inl (List.mem_filter.mp h'').1
            · rw [List.mem_singleton.mp h'']
              exact Or.inr rfl
          · exact Or.inr h'
        | error e =>
          rw [hcr] at h
          exact ih s linked r h

theorem tagOverlapPass_rels (item : Item) (newTags linked : List Str) :
    ∀ (others : List Item) (s : VaultState) (r : Rel),
      r ∈ (tagOverlapPass item newTags linked others s).rels →
      r ∈ s.rels ∨ ∃ other ∈ others, other.id ≠ item.id ∧ other.id ∉ linked ∧
        countSharedTags newTags (filterGraphTags (normalizeTags other.tags)) ≠ 0 ∧
        r = ⟨(orderedPair item.id other.id).1, (orderedPair item.id other.id).2,
             "tag".data, tagOverlapStrength
               (countSharedTags newTags (filterGraphTags (normalizeTags other.tags)))⟩ := by
  intro others
  induction others with
  | nil => exact fun s r h => Or.inl h
  | cons other rest ih =>
    intro s r h
    simp only [tagOverlapPass] at h
    have lift : ∀ {s0 : VaultState}, r ∈ (tagOverlapPass item newTags linked rest s0).rels →
        r ∈ s0.rels ∨ ∃ o ∈ other :: rest, o.id ≠ item.id ∧ o.id ∉ linked ∧
        countSharedTags newTags (filterGraphTags (normalizeTags o.tags)) ≠ 0 ∧
        r = ⟨(orderedPair item.id o.id).1, (orderedPair item.id o.id).2,
             "tag".data, tagOverlapStrength
               (countSharedTags newTags (filterGraphTags (normalizeTags o.tags)))⟩ := by
      intro s0 h0
      rcases ih s0 r h0 with h' | ⟨o, ho, rest'⟩
      · exact Or.inl h'
      · exact Or.inr ⟨o, List.mem_cons_of_mem _ ho, rest'⟩
    by_cases he : other.id = item.id
    · rw [if_pos he] at h
      exact lift h
    · rw [if_neg he] at h
      by_cases hin : other.id ∈ linked
      · rw [if_pos hin] at h
        exact lift h
      · rw [if_neg hin] at h
        by_cases hov : countSharedTags newTags (filterGraphTags (normalizeTags other.tags)) = 0
        · rw [if_pos hov] at h
          exact lift h
        · rw [if_neg hov] at h
          rcases lift h with h' | h'
          · rcases runCreateRelationship_mem h' with h'' | h''
            · exact Or.inl h''
            · exact Or.inr ⟨other, List.mem_cons_self _ _, he, hin, hov, h''⟩
          · exact Or.inr h'

theorem orderedPair_cases (a b : Str) :
    orderedPair a b = (a, b) ∨ orderedPair a b = (b, a) := by
  unfold orderedPair
  split
  · exact Or.inl rfl
  · exact Or.inr rfl

theorem strLt_orderedPair {a b : Str} (h : a ≠ b) :
    strLt (orderedPair a b).1 (orderedPair a b).2 = true := by
  unfold orderedPair
  by_cases hlt : strLt a b = true
  · rw [if_pos hlt]
    exact hlt
  · rw [if_neg hlt]
    rcases strLt_connex h with h' | h'
    · exact absurd h' hlt
    · exact h'

theorem tagOverlapStrength_min {k : Nat} (h : k ≠ 0) :
    tagOverlapStrength k = min 1 (0.4 + 0.15 * (k : ℚ)) := by
  unfold tagOverlapStrength
  rw [if_neg h]
  by_cases hs : (0.4 + 0.15 * (k : ℚ)) > 1
  · rw [if_pos hs, min_eq_left (le_of_lt hs)]
  · rw [if_neg hs, min_eq_right (le_of_not_lt hs)]

/-- C3: every tag edge written by relationship inference for the new item
joins it with some listed item sharing at least one non-generic tag; its
strength is 0.4 + 0.15 per shared tag clamped to 1, its source is the
lexicographically smaller of the two ids and its target the larger. -/
theorem claim_C3_tag_overlap_edges (s : VaultState) (item : Item) (r : Rel)
    (hmem : r ∈ (findAndCreateRelationships s item).rels)
    (hnew : r ∉ s.rels)
    (htype : r.relationType = "tag".data) :
    ∃ other ∈ listItems s 1000 0, other.id ≠ item.id ∧
      1 ≤ countSharedTags (filterGraphTags (normalizeTags item.tags))
            (filterGraphTags (normalizeTags other.tags)) ∧
      r.strength = min 1 (0.4 + 0.15 *
        (countSharedTags (filterGraphTags (normalizeTags item.tags))
          (filterGraphTags (normalizeTags other.tags)) : ℚ)) ∧
      ((r.sourceId = item.id ∧ r.targetId = other.id) ∨
        (r.sourceId = other.id ∧ r.targetId = item.id)) ∧
      strLt r.sourceId r.targetId = true := by
  unfold findAndCreateRelationships at hmem
  by_cases hlen : (listItems s 1000 0).length ≤ 1
  · rw [if_pos hlen] at hmem
    exact absurd hmem hnew
  · rw [if_neg hlen] at hmem
    have hlink : r.relationType ≠ "link".data := by
      rw [htype]
      decide
    have hr2fact : ∀ x : Rel,
        x ∈ ((if normalizeTitle item.title ≠ [] then
          backLinkPass item (normalizeTitle item.title) (listItems s 1000 0)
            (wikiLinkPass item (listItems s 1000 0)
              (extractWikiLinkTargets item.content) (s, []))
          else wikiLinkPass item (listItems s 1000 0)
            (extractWikiLinkTargets item.content) (s, []))).1.rels →
        x ∈ s.rels ∨ x.relationType = "link".data := by
      intro x hx
      split at hx
      · rcases backLinkPass_rels item (normalizeTitle item.title) (listItems s 1000 0)
          _ _ x hx with h' | h'
        · exact wikiLinkPass_rels item (listItems s 1000 0)
            (extractWikiLinkTargets item.content) s [] x h'
        · exact Or.inr h'
      · exact wikiLinkPass_rels item (listItems s 1000 0)
          (extractWikiLinkTargets item.content) s [] x hx
    by_cases hnt : filterGraphTags (normalizeTags item.tags) = []
    · rw [if_pos hnt] at hmem
      rcases hr2fact r hmem with h | h
      · exact absurd h hnew
      · exact absurd h hlink
    · rw [if_neg hnt] at hmem
      rcases tagOverlapPass_rels item (filterGraphTags (normalizeTags item.tags)) _
        (listItems s 1000 0) _ r hmem with h | ⟨other, hother, hne, hnl, hov, hr⟩
      · rcases hr2fact r h with h' | h'
        · exact absurd h' hnew
        · exact absurd h' hlink
      · have hne' : item.id ≠ other.id := fun he => hne he.symm
        refine ⟨other, hother, hne, Nat.one_le_iff_ne_zero.mpr hov, ?_, ?_, ?_⟩
        · rw [hr]
          exact tagOverlapStrength_min hov
        · rcases orderedPair_cases item.id other.id with hp | hp
          · rw [hr, hp]
            exact Or.inl ⟨rfl, rfl⟩
          · rw [hr, hp]
            exact Or.inr ⟨rfl, rfl⟩
        · rw [hr]
          exact strLt_orderedPair hne'

/-- Witness for C3: two stored notes share the single non-generic tag go;
inference writes one tag edge from the smaller id a to the larger id b
with the overlap strength of one shared tag. -/
theorem claim_C3_tag_overlap_edges_witness :
    c3Edge ∈ (findAndCreateRelationships c3State c3NewItem).rels ∧
    c3Edge ∉ c3State.rels ∧ c3Edge.relationType = "tag".data ∧
    (∃ other ∈ listItems c3State 1000 0, other.id ≠ c3NewItem.id ∧
      1 ≤ countSharedTags (filterGraphTags (normalizeTags c3NewItem.tags))
            (filterGraphTags (normalizeTags other.tags)) ∧
      c3Edge.strength = min 1 (0.4 + 0.15 *
        (countSharedTags (filterGraphTags (normalizeTags c3NewItem.tags))
          (filterGraphTags (normalizeTags other.tags)) : ℚ)) ∧
      ((c3Edge.sourceId = c3NewItem.id ∧ c3Edge.targetId = other.id) ∨
        (c3Edge.sourceId = other.id ∧ c3Edge.targetId = c3NewItem.id)) ∧
      strLt c3Edge.sourceId c3Edge.targetId = true) := by
  have hrels : (findAndCreateRelationships c3State c3NewItem).rels = [c3Edge] := rfl
  have hmem : c3Edge ∈ (findAndCreateRelationships c3State c3NewItem).rels := by
    rw [hrels]
    exact List.mem_singleton_self _
  have hsrels : c3State.rels = [] := rfl
  have hnew : c3Edge ∉ c3State.rels := by
    rw [hsrels]
    simp
  exact ⟨hmem, hnew, rfl,
    claim_C3_tag_overlap_edges c3State c3NewItem c3Edge hmem hnew rfl⟩

/-! Claim C5: export contents. -/

theorem isPrefixOf_append_self (u v : Str) : u.isPrefixOf (u ++ v) = true := by
  induction u with
  | nil => simp [List.isPrefixOf]
  | cons a u ih => simp [List.isPrefixOf, ih]

theorem isPrefixOf_exists {u w : Str} (h : u.isPrefixOf w = true) :
    ∃ t, w = u ++ t := by
  induction u generalizing w with
  | nil => exact ⟨w, rfl⟩
  | cons a u ih =>
    cases w with
    | nil => exact absurd h (by simp [List.isPrefixOf])
    | cons b w' =>
      simp only [List.isPrefixOf, Bool.and_eq_true, beq_iff_eq] at h
      obtain ⟨rfl, h2⟩ := h
      obtain ⟨t, ht⟩ := ih h2
      exact ⟨t, by rw [List.cons_append, ← ht]⟩

/-- The markdown of an item always opens with the frontmatter id line. -/
theorem itemToMarkdown_head (item : Item) (rel : List Str)
    (lookup : Str → Option Str) :
    itemToMarkdown item rel lookup =
      "---\nid: ".data ++ item.id ++
        '\n' :: (itemFrontRest item ++ itemBody item rel lookup) := by
  unfold itemToMarkdown
  simp only [List.append_assoc]
  rfl

/-- Recognizing an entry by its frontmatter id pins the id, for ids free of
newlines. -/
theorem entry_id_eq {x y rest : Str} (hx : '\n' ∉ x) (hy : '\n' ∉ y)
    (h : ("---\nid: ".data ++ x ++ "\n".data).isPrefixOf
      ("---\nid: ".data ++ y ++ '\n' :: rest) = true) : x = y := by
  obtain ⟨t, ht⟩ := isPrefixOf_exists h
  simp only [List.append_assoc] at ht
  have ht' := List.append_cancel_left ht
  rw [List.singleton_append] at ht'
  exact ((append_sep_inj hy hx ht').1).symm

/-- The markdown of an item with outgoing link targets carries a Related
block listing the resolvable targets. -/
theorem itemToMarkdown_related (item : Item) (rel : List Str)
    (lookup : Str → Option Str) (hne : rel ≠ []) :
    ∃ pre, itemToMarkdown item rel lookup =
      pre ++ ("## Related\n\n".data ++ relatedBlock rel lookup) := by
  refine ⟨("---\nid: ".data ++ item.id ++ "\n".data ++ itemFrontRest item) ++
    ("# ".data ++ item.title ++ "\n\n".data ++
     (if item.summary ≠ [] then "> ".data ++ item.summary ++ "\n\n".data else []) ++
     (if item.url ≠ [] then
       "**Source:** [".data ++ item.url ++ "](".data ++ item.url ++ ")\n\n".data
      else []) ++
     (if item.content ≠ [] then
       "## Content\n\n".data ++ item.content ++ "\n\n".data else [])), ?_⟩
  unfold itemToMarkdown itemBody
  rw [if_pos hne]
  simp only [List.append_assoc]

theorem flatten_decomp {L : List Str} {x : Str} (hx : x ∈ L) :
    ∃ w z, L.flatten = w ++ x ++ z := by
  induction L with
  | nil => exact absurd hx (List.not_mem_nil x)
  | cons y rest ih =>
    rcases List.mem_cons.mp hx with h | h
    · exact ⟨[], rest.flatten, by rw [h]; simp⟩
    · obtain ⟨w, z, hw⟩ := ih h
      exact ⟨y ++ w, z, by simp [hw]⟩

theorem countP_eq_one_of_unique {α : Type} {p : α → Bool} {l : List α} {a : α}
    (hnodup : l.Nodup) (ha : a ∈ l) (hp : ∀ x ∈ l, (p x = true ↔ x = a)) :
    l.countP p = 1 := by
  induction l with
  | nil => exact absurd ha (List.not_mem_nil a)
  | cons b rest ih =>
    rw [List.countP_cons]
    rcases List.mem_cons.mp ha with hab | ha'
    · subst hab
      have hpa : p a = true := (hp a (List.mem_cons_self _ _)).mpr rfl
      rw [if_pos hpa, List.countP_eq_zero.mpr ?_]
      · intro x hx hpx
        have := (hp x (List.mem_cons_of_mem _ hx)).mp hpx
        subst this
        exact (List.nodup_cons.mp hnodup).1 hx
    · have hb : p b = false := by
        by_contra hpb
        rw [Bool.not_eq_false] at hpb
        have := (hp b (List.mem_cons_self _ _)).mp hpb
        subst this
        exact (List.nodup_cons.mp hnodup).1 ha'
      rw [if_neg (by simp [hb])]
      exact ih (List.nodup_cons.mp hnodup).2 ha'
        (fun x hx => hp x (List.mem_cons_of_mem _ hx))

theorem foldl_lookup_const {id T : Str} :
    ∀ (items : List Item), (∀ x ∈ items, x.id = id → x.title = T) →
      items.foldl (fun acc it => if it.id = id then some it.title else acc)
        (some T) = some T := by
  intro items
  induction items with
  | nil => intro h; rfl
  | cons b rest ih =>
    intro h
    simp only [List.foldl_cons]
    by_cases hb : b.id = id
    · rw [if_pos hb, h b (List.mem_cons_self _ _) hb]
      exact ih (fun x hx => h x (List.mem_cons_of_mem _ hx))
    · rw [if_neg hb]
      exact ih (fun x hx => h x (List.mem_cons_of_mem _ hx))

theorem lookup_aux {tgt : Item} :
    ∀ (items : List Item) (acc : Option Str), tgt ∈ items →
      (∀ x ∈ items, x.id = tgt.id → x.title = tgt.title) →
      items.foldl (fun acc it => if it.id = tgt.id then some it.title else acc)
        acc = some tgt.title := by
  intro items
  induction items with
  | nil => intro acc h; exact absurd h (List.not_mem_nil tgt)
  | cons b rest ih =>
    intro acc hm hu
    simp only [List.foldl_cons]
    rcases List.mem_cons.mp hm with hb | hm'
    · subst hb
      rw [if_pos rfl]
      exact foldl_lookup_const rest (fun x hx => hu x (List.mem_cons_of_mem _ hx))
    · exact ih _ hm' (fun x hx => hu x (List.mem_cons_of_mem _ hx))

theorem titleMapLookup_eq {items : List Item} {tgt : Item} (hmem : tgt ∈ items)
    (huniq : ∀ x ∈ items, x.id = tgt.id → x.title = tgt.title) :
    titleMapLookup items tgt.id = some tgt.title :=
  lookup_aux items none hmem huniq

theorem filter_filter_of_imp {α : Type} {p q : α → Bool} (l : List α)
    (h : ∀ x, p x = true → q x = true) :
    (l.filter q).filter p = l.filter p := by
  induction l with
  | nil => rfl
  | cons a rest ih =>
    by_cases hq : q a = true
    · by_cases hp : p a = true
      · simp only [List.filter_cons, if_pos hq, if_pos hp, ih]
      · simp only [List.filter_cons, if_pos hq, if_neg hp, ih]
    · have hp : ¬ p a = true := fun hpa => hq (h a hpa)
      simp only [List.filter_cons, if_neg hq, if_neg hp, ih]

/-- Link targets read off the deduplicated graph edges agree with the ones
read off the raw relationship table. -/
theorem linkTargets_getGraphEdges (rels : List Rel) (id : Str) :
    linkTargets (getGraphEdges rels) id = linkTargets rels id := by
  unfold linkTargets getGraphEdges
  rw [List.filter_append]
  have h2 : (survivingTagEdges rels).filter
      (fun r => r.relationType = "link".data ∧ r.sourceId = id) = [] := by
    rw [List.filter_eq_nil_iff]
    intro x hx
    have hx1 := (List.mem_filter.mp (List.mem_filter.mp hx).1).2
    simp only [decide_eq_true_eq] at hx1 ⊢
    intro hc
    rw [hx1] at hc
    exact absurd hc.1 (by decide)
  rw [h2, List.append_nil]
  unfold linkEdges
  rw [filter_filter_of_imp]
  intro x hx
  simp only [decide_eq_true_eq] at hx ⊢
  exact hx.1

theorem link_mem_getGraphEdges {r : Rel} {rels : List Rel} (hr : r ∈ rels)
    (ht : r.relationType = "link".data) : r ∈ getGraphEdges rels :=
  List.mem_append_left _ (List.mem_filter.mpr ⟨hr, by simp [ht]⟩)

theorem listItems_mem {s : VaultState} {it : Item} (h : it ∈ listItems s 1000 0) :
    ∃ row ∈ s.items, it = loadTags s row := by
  unfold listItems at h
  obtain ⟨row, hrow, heq⟩ := List.mem_map.mp h
  exact ⟨row, List.mem_of_mem_drop (List.mem_of_mem_take hrow), heq.symm⟩

theorem listItems_ids_nodup {s : VaultState}
    (h : (s.items.map (fun it => it.id)).Nodup) :
    ((listItems s 1000 0).map (fun it => it.id)).Nodup := by
  unfold listItems
  rw [List.map_map]
  have heq : ((s.items.drop 0).take 1000).map ((fun it => it.id) ∘ loadTags s) =
      ((s.items.drop 0).take 1000).map (fun it => it.id) :=
    List.map_congr_left (fun a ha => rfl)
  rw [heq, List.drop_zero]
  exact List.Nodup.sublist (List.Sublist.map _ (List.take_sublist _ _)) h

/-- C5 (amended): for every item in the 1000-most-recent graph snapshot, the
archive holds exactly one entry named after its sanitized title whose
frontmatter opens with its id; every outgoing link edge whose target is
also in the snapshot yields a wiki-link line after the Related header of
that item's entry; and deleting every tag edge leaves the export
unchanged, so tag edges are excluded from it. -/
theorem claim_C5_export_snapshot (s : VaultState) (item : Item)
    (hnodup : (s.items.map (fun it => it.id)).Nodup)
    (hnl : ∀ it ∈ s.items, '\n' ∉ it.id)
    (hmem : item ∈ listItems s 1000 0) :
    (exportVault s).countP (entryForBool item) = 1 ∧
    (∀ r ∈ s.rels, r.relationType = "link".data → r.sourceId = item.id →
      ∀ tgt ∈ listItems s 1000 0, tgt.id = r.targetId →
      ∃ pre w z, itemToMarkdown item (linkTargets (getGraphEdges s.rels) item.id)
          (titleMapLookup (listItems s 1000 0)) =
        pre ++ ("## Related\n\n".data ++
          (w ++ ("- [[".data ++ tgt.title ++ "]]\n".data) ++ z))) ∧
    exportVault s =
      exportVault { s with
        rels := s.rels.filter (fun r => ¬ r.relationType = "tag".data) } ∧
    ("notes/".data ++ sanitizeFilename item.title ++ ".md".data,
      itemToMarkdown item (linkTargets (getGraphEdges s.rels) item.id)
        (titleMapLookup (listItems s 1000 0))) ∈ exportVault s := by
  have hLnodupIds := listItems_ids_nodup hnodup
  have hLnodup : (listItems s 1000 0).Nodup := List.Nodup.of_map _ hLnodupIds
  have hinj := List.inj_on_of_nodup_map hLnodupIds
  have hnlL : ∀ it ∈ listItems s 1000 0, '\n' ∉ it.id := by
    intro it hit
    obtain ⟨row, hrow, heq⟩ := listItems_mem hit
    rw [heq]
    exact hnl row hrow
  have hexport : exportVault s = (listItems s 1000 0).map (fun it =>
      ("notes/".data ++ sanitizeFilename it.title ++ ".md".data,
       itemToMarkdown it (linkTargets (getGraphEdges s.rels) it.id)
         (titleMapLookup (listItems s 1000 0)))) := rfl
  have hchar : ∀ it' ∈ listItems s 1000 0,
      (entryForBool item ("notes/".data ++ sanitizeFilename it'.title ++ ".md".data,
        itemToMarkdown it' (linkTargets (getGraphEdges s.rels) it'.id)
          (titleMapLookup (listItems s 1000 0))) = true ↔ it' = item) := by
    intro it' hit'
    constructor
    · intro hp
      unfold entryForBool at hp
      rw [Bool.and_eq_true] at hp
      have hpre := hp.2
      rw [itemToMarkdown_head] at hpre
      have hid := entry_id_eq (hnlL item hmem) (hnlL it' hit') hpre
      exact hinj hit' hmem hid.symm
    · intro he
      subst he
      unfold entryForBool
      rw [Bool.and_eq_true]
      refine ⟨by simp, ?_⟩
      rw [itemToMarkdown_head]
      have hshape : ("---\nid: ".data ++ it'.id ++
          '\n' :: (itemFrontRest it' ++ itemBody it'
            (linkTargets (getGraphEdges s.rels) it'.id)
            (titleMapLookup (listItems s 1000 0)))) =
          ("---\nid: ".data ++ it'.id ++ "\n".data) ++
          (itemFrontRest it' ++ itemBody it'
            (linkTargets (getGraphEdges s.rels) it'.id)
            (titleMapLookup (listItems s 1000 0))) := by
        simp [List.append_assoc]
      rw [hshape]
      exact isPrefixOf_append_self _ _
  refine ⟨?_, ?_, ?_, ?_⟩
  · rw [hexport, List.countP_map]
    exact countP_eq_one_of_unique hLnodup hmem (fun x hx => hchar x hx)
  · intro r hr htype hsrc tgt htgt hid
    have hrG : r ∈ getGraphEdges s.rels := link_mem_getGraphEdges hr htype
    have hmemT : r.targetId ∈ linkTargets (getGraphEdges s.rels) item.id := by
      unfold linkTargets
      exact List.mem_map_of_mem _ (List.mem_filter.mpr ⟨hrG, by simp [htype, hsrc]⟩)
    have hne : linkTargets (getGraphEdges s.rels) item.id ≠ [] :=
      List.ne_nil_of_mem hmemT
    obtain ⟨pre, hpre⟩ := itemToMarkdown_related item _
      (titleMapLookup (listItems s 1000 0)) hne
    have hlook : titleMapLookup (listItems s 1000 0) r.targetId = some tgt.title := by
      rw [← hid]
      exact titleMapLookup_eq htgt (fun x hx hxid => by rw [hinj hx htgt hxid])
    have hline : ("- [[".data ++ tgt.title ++ "]]\n".data) ∈
        (linkTargets (getGraphEdges s.rels) item.id).map (fun id =>
          match titleMapLookup (listItems s 1000 0) id with
          | some t => "- [[".data ++ t ++ "]]\n".data
          | none => ([] : Str)) := by
      have hm := List.mem_map_of_mem (fun id =>
        match titleMapLookup (listItems s 1000 0) id with
        | some t => "- [[".data ++ t ++ "]]\n".data
        | none => ([] : Str)) hmemT
      have hval : (fun id =>
          match titleMapLookup (listItems s 1000 0) id with
          | some t => "- [[".data ++ t ++ "]]\n".data
          | none => ([] : Str)) r.targetId =
          "- [[".data ++ tgt.title ++ "]]\n".data := by
        show (match titleMapLookup (listItems s 1000 0) r.targetId with
          | some t => "- [[".data ++ t ++ "]]\n".data
          | none => ([] : Str)) = _
        rw [hlook]
      rw [hval] at hm
      exact hm
    obtain ⟨w, z, hwz⟩ := flatten_decomp hline
    refine ⟨pre, w, z, ?_⟩
    rw [hpre]
    unfold relatedBlock
    rw [hwz]
  · have hfilt : ∀ id : Str,
        linkTargets (s.rels.filter (fun r => ¬ r.relationType = "tag".data)) id =
        linkTargets s.rels id := by
      intro id
      unfold linkTargets
      rw [filter_filter_of_imp]
      intro x hx
      simp only [decide_eq_true_eq] at hx ⊢
      rw [hx.1]
      decide
    have hexport2 : exportVault { s with
        rels := s.rels.filter (fun r => ¬ r.relationType = "tag".data) } =
      (listItems s 1000 0).map (fun it =>
        ("notes/".data ++ sanitizeFilename it.title ++ ".md".data,
         itemToMarkdown it (linkTargets (getGraphEdges
             (s.rels.filter (fun r => ¬ r.relationType = "tag".data))) it.id)
           (titleMapLookup (listItems s 1000 0)))) := rfl
    rw [hexport, hexport2]
    refine List.map_congr_left (fun it hit => ?_)
    rw [linkTargets_getGraphEdges, linkTargets_getGraphEdges, hfilt it.id]
  · rw [hexport]
    exact List.mem_map_of_mem _ hmem

set_option maxRecDepth 20000 in
/-- C5 counterexample: in a vault of 1001 items the oldest item is
persisted yet the export holds no entry for it (its id heads no
frontmatter), because the export iterates the graph snapshot, which is
capped at the 1000 most recent items; moreover the link edge pointing at
that item renders no wiki-link line in its source's entry, since the
target's title is not in the snapshot's title map. -/
theorem claim_C5_counterexample :
    c5Item 1000 ∈ bigState.items ∧
    (exportVault bigState).countP (entryForBool (c5Item 1000)) = 0 ∧
    c5Rel ∈ bigState.rels ∧
    c5Rel.relationType = "link".data ∧
    c5Rel.sourceId = (c5Item 0).id ∧
    hasSub "- [[".data (itemToMarkdown (c5Item 0)
      (linkTargets (getGraphEdges bigState.rels) (c5Item 0).id)
      (titleMapLookup (listItems bigState 1000 0))) = false :=
  ⟨List.mem_map_of_mem c5Item (List.mem_range.mpr (by norm_num)),
   by decide, List.mem_singleton_self _, rfl, rfl, by decide⟩

theorem claim_C5_export_snapshot_witness :
    (exportVault sampleVault).countP (entryForBool sampleItemLoaded) = 1 ∧
    ("notes/".data ++ sanitizeFilename sampleItemLoaded.title ++ ".md".data,
      itemToMarkdown sampleItemLoaded
        (linkTargets (getGraphEdges sampleVault.rels) sampleItemLoaded.id)
        (titleMapLookup (listItems sampleVault 1000 0))) ∈ exportVault sampleVault := by
  have h := claim_C5_export_snapshot sampleVault sampleItemLoaded
    (by decide) (by decide) (by decide)
  exact ⟨h.1, h.2.2.2⟩

end Dumper
